import Mathlib

/-!
The file pool of `mimic` (`files.go`).

A shallow embedding of `FilePool.Add` and `FilePool.write`, together with the
functions of Go's `path/filepath` package (Unix flavour, separator `/`) that the
two methods call: `Base`, `Clean`, `Join` and `Dir`.

A Go string is modelled as the list of its characters.  The path functions look
only at the ASCII bytes `/` and `.`, which never occur inside the UTF-8 encoding
of another character, so working on characters or on bytes is the same.
-/

namespace Mimic

/-- A Go `string` (also used for `[]byte`). -/
abbrev GoString := List Char

/-! ## `path/filepath` -/

/-- The constant `filepath.Separator` on Unix. -/
def Separator : Char := '/'

/-- The function `os.IsPathSeparator` on Unix. -/
def IsPathSeparator (c : Char) : Bool := c == Separator

/-- True on the bytes that are NOT a separator (the negated loop test of `Base`, `Dir`, `Clean`). -/
def notSeparator (c : Char) : Bool := !IsPathSeparator c

/-- The function `filepath.Base`: the last element of `path`.  Trailing separators are removed
first; the empty path gives `"."`, a path of separators only gives `"/"`.

    if path == "" { return "." }
    for len(path) > 0 && os.IsPathSeparator(path[len(path)-1]) { path = path[0 : len(path)-1] }
    i := len(path) - 1
    for i >= 0 && !os.IsPathSeparator(path[i]) { i-- }
    if i >= 0 { path = path[i+1:] }
    if path == "" { return string(Separator) }
    return path
-/
def Base (path : GoString) : GoString :=
  if path = [] then ['.']
  else
    let stripped := path.rdropWhile IsPathSeparator
    let last := stripped.rtakeWhile notSeparator
    if last = [] then [Separator] else last

/-- The test `r == n || os.IsPathSeparator(path[r])` of `Clean`, on the input that is left at `r`. -/
def atEndOrSeparator (rest : GoString) : Bool :=
  match rest with
  | [] => true
  | c :: _ => IsPathSeparator c

/-- The backtracking of `Clean` at a `..` element, from the write index `w` (already decremented
once by the caller):  `for out.w > dotdot && !os.IsPathSeparator(out.index(out.w)) { out.w-- }`.
Returns the final write index. -/
def backtrack (buf : GoString) (dotdot : Nat) : Nat → Nat
  | 0 => 0
  | w + 1 =>
    if w + 1 > dotdot ∧ notSeparator (buf.getD (w + 1) Separator) = true then backtrack buf dotdot w
    else w + 1

/-- The inner switch of `Clean` at a `..` element: the buffer and the index `dotdot` afterwards.

    case out.w > dotdot:  // can backtrack
        out.w--
        for out.w > dotdot && !os.IsPathSeparator(out.index(out.w)) { out.w-- }
    case !rooted:         // cannot backtrack, but not rooted, so append .. element.
        if out.w > 0 { out.append(Separator) }
        out.append('.'); out.append('.'); dotdot = out.w
-/
def dotdotStep (rooted : Bool) (out : GoString) (dotdot : Nat) : GoString × Nat :=
  if out.length > dotdot then
    (out.take (backtrack out dotdot (out.length - 1)), dotdot)
  else if rooted = false then
    let out1 := (if out.length > 0 then out ++ [Separator] else out) ++ ['.', '.']
    (out1, out1.length)
  else (out, dotdot)

/-- The step `add slash if needed` of `Clean` before a real path element is copied:
`if rooted && out.w != 1 || !rooted && out.w != 0 { out.append(Separator) }`. -/
def addSlash (rooted : Bool) (out : GoString) : GoString :=
  if (rooted = true ∧ out.length ≠ 1) ∨ (rooted = false ∧ out.length ≠ 0)
  then out ++ [Separator] else out

/-- The main loop of `filepath.Clean`.  `rest` is the input from the read index `r` on, `out` the
bytes written so far (`out.w` is `out.length`), `dotdot` the index where `..` must stop.  Every
iteration consumes at least one byte of `rest`, so `rest.length` iterations are always enough
(`cleanLoop_fuel`). -/
def cleanLoop (rooted : Bool) : Nat → GoString → GoString → Nat → GoString
  | 0, _, out, _ => out
  | fuel + 1, rest, out, dotdot =>
    match rest with
    | [] => out
    | c :: tl =>
      if IsPathSeparator c = true then
        -- empty path element
        cleanLoop rooted fuel tl out dotdot
      else if c = '.' ∧ atEndOrSeparator tl = true then
        -- . element
        cleanLoop rooted fuel tl out dotdot
      else if c = '.' ∧ tl.head? = some '.' ∧ atEndOrSeparator tl.tail = true then
        -- .. element: remove to last separator
        cleanLoop rooted fuel tl.tail (dotdotStep rooted out dotdot).1
          (dotdotStep rooted out dotdot).2
      else
        -- real path element: add slash if needed, copy element
        cleanLoop rooted fuel (rest.dropWhile notSeparator)
          (addSlash rooted out ++ rest.takeWhile notSeparator) dotdot

/-- The function `filepath.Clean` on Unix (no volume name; the lazy buffer is a plain buffer). -/
def Clean (path : GoString) : GoString :=
  if path = [] then ['.']
  else
    let rooted := path.head?.any IsPathSeparator
    let out :=
      if rooted = true then cleanLoop rooted path.length path.tail [Separator] 1
      else cleanLoop rooted path.length path [] 0
    -- Turn empty string into "."
    if out = [] then ['.'] else out

/-- The function `strings.Join`. -/
def stringsJoin : List GoString → GoString → GoString
  | [], _ => []
  | [e], _ => e
  | e :: rest, sep => e ++ sep ++ stringsJoin rest sep

/-- The function `filepath.Join`: the elements from the first non-empty one on, joined with the
separator and cleaned; the empty string when every element is empty. -/
def Join : List GoString → GoString
  | [] => []
  | e :: rest => if e ≠ [] then Clean (stringsJoin (e :: rest) [Separator]) else Join rest

/-- The function `filepath.Dir`: all but the last element of `path`, cleaned. -/
def Dir (path : GoString) : GoString :=
  Clean (path.rdropWhile notSeparator)

/-! ## The pool -/

/-- The type `map[string]string` of `FilePool.m`: the key-value pairs, no key twice.  A nil map and
an empty map are both `[]` (reading and ranging treat them alike, and `Add` allocates before its
only write).  The order of the list stands for the order in which `range` yields the pairs; Go
leaves that order unspecified, so what is said of a map is said of every permutation of its list. -/
abbrev GoMap := List (GoString × GoString)

/-- The map read `v, ok := m[k]`. -/
def mapGet : GoMap → GoString → Option GoString
  | [], _ => none
  | (k1, v) :: rest, k => if k1 = k then some v else mapGet rest k

/-- The map write `m[k] = v`: replaces the value of an existing key, adds the pair otherwise. -/
def mapSet : GoMap → GoString → GoString → GoMap
  | [], k, v => [(k, v)]
  | (k1, v1) :: rest, k, v => if k1 = k then (k, v) :: rest else (k1, v1) :: mapSet rest k v

/-- The interface `encoding.Encoder`: an `io.Reader`, given by what `io.ReadAll` returns on it (the
bytes, or the text of the error), and the method `EncodeComment`. -/
structure Encoder where
  ReadAll : Except GoString GoString
  EncodeComment : GoString → GoString

/-- The struct `FilePool` (the logger left out). -/
structure FilePool where
  path : List GoString
  m : GoMap
  topLevelComments : List GoString

/-- The three aborts of `Add`, named as in the error taxonomy of the specification, each with the
arguments its `Panicf` call receives. -/
inductive AddPanic where
  /-- Line 37: `Panicf("")`. -/
  | InvalidFileName
  /-- Line 42: `Panicf("failed to output: %s", err)`. -/
  | EncodingFailure (err : GoString)
  /-- Line 57: `Panicf("filename clash: %s", output)`. -/
  | FilenameClash (output : GoString)
  deriving DecidableEq

/-- The format string the abort hands to `Panicf`. -/
def AddPanic.format : AddPanic → GoString
  | .InvalidFileName => "".toList
  | .EncodingFailure _ => "failed to output: %s".toList
  | .FilenameClash _ => "filename clash: %s".toList

/-- The arguments the abort hands to `Panicf` after the format string. -/
def AddPanic.args : AddPanic → List GoString
  | .InvalidFileName => []
  | .EncodingFailure err => [err]
  | .FilenameClash output => [output]

/-- The function `fmt.Sprintf` for formats whose only verb is `%s`, with one argument per verb. -/
def Sprintf : GoString → List GoString → GoString
  | [], _ => []
  | [c], _ => [c]
  | c :: d :: rest, args =>
    if c = '%' ∧ d = 's' then
      match args with
      | a :: more => a ++ Sprintf rest more
      | [] => c :: d :: Sprintf rest []
    else c :: Sprintf (d :: rest) args

/-- Modelled from the spec: `Panicf` is defined outside the source files at hand; the process
aborts with the message that the format and its arguments describe. -/
def AddPanic.message (p : AddPanic) : GoString := Sprintf p.format p.args

/-- What a call of `Add` leaves behind: the pool, and the abort if there was one. -/
structure AddResult where
  pool : FilePool
  panic : Option AddPanic

/-- The method `FilePool.Add`. -/
def FilePool.Add (f : FilePool) (fileName : GoString) (e : Encoder) : AddResult :=
  if Base fileName ≠ fileName then ⟨f, some .InvalidFileName⟩
  else
    match e.ReadAll with
    | .error err => ⟨f, some (.EncodingFailure err)⟩
    | .ok b =>
      let b :=
        if f.topLevelComments.length > 0 then
          f.topLevelComments.foldl (fun commentBytes comment =>
            commentBytes ++ e.EncodeComment comment) [] ++ b
        else b
      let output := Join (f.path ++ [fileName])
      -- Check whether we have already written something into this file.
      if (mapGet f.m output).isSome then ⟨f, some (.FilenameClash output)⟩
      else ⟨{ f with m := mapSet f.m output b }, none⟩

/-- One call of `Add` in the lifetime of a pool.  The orchestration layer sets the path stack and
the top-level comments between the calls; the map is what the calls share. -/
structure Call where
  path : List GoString
  topLevelComments : List GoString
  fileName : GoString
  e : Encoder

/-- The resolved output path of a call: `filepath.Join(append(f.path, fileName)...)`. -/
def Call.output (c : Call) : GoString := Join (c.path ++ [c.fileName])

/-- The call `c` on the map `m`. -/
def Call.run (c : Call) (m : GoMap) : AddResult :=
  FilePool.Add ⟨c.path, m, c.topLevelComments⟩ c.fileName c.e

/-- A lifetime: the calls in turn, each on the map the one before left.  An abort ends the run, so
there is a map afterwards only when no call aborted. -/
def runCalls : List Call → GoMap → Option GoMap
  | [], m => some m
  | c :: rest, m =>
    match (c.run m).panic with
    | some _ => none
    | none => runCalls rest (c.run m).pool.m

/-! ## The write pass -/

/-- The function `filepath.IsAbs` on Unix: `strings.HasPrefix(path, "/")`. -/
def IsAbs (path : GoString) : Bool := path.head?.any IsPathSeparator

/-- The function `filepath.Abs` for the working directory `wd`: a rooted path cleaned, any other
path joined to the working directory.  On a filesystem without links it is the file that the
kernel resolves the name to, so two names are one file exactly when their `Abs` is the same. -/
def Abs (wd path : GoString) : GoString :=
  if IsAbs path = true then Clean path else Join [wd, path]

/-- A filesystem without symbolic or hard links, seen from a process: its working directory (a
rooted path), the content of every regular file and the set of directories.  Files and
directories are identified by their absolute cleaned path, not by the name a call gives them. -/
structure FS where
  wd : GoString
  files : GoString → Option GoString
  dirs : GoString → Bool

/-- The content of the file that `name` resolves to, as `os.ReadFile(name)` returns it. -/
def FS.ReadFile (fs : FS) (name : GoString) : Option GoString :=
  fs.files (Abs fs.wd name)

/-- The path `d` and the directories above it, up to the root or `"."`, found by taking
`filepath.Dir` again and again, at most `n` times (a path has fewer elements than bytes). -/
def ancestors : Nat → GoString → List GoString
  | 0, d => [d]
  | n + 1, d => d :: (if Dir d = d then [] else ancestors n (Dir d))

/-- The effect of a successful `os.MkdirAll(path, 0755)`: the directory that `path` resolves to
and all its parents are directories. -/
def FS.MkdirAll (fs : FS) (path : GoString) : FS :=
  { fs with dirs := fun p =>
      fs.dirs p || decide (p ∈ ancestors (Abs fs.wd path).length (Abs fs.wd path)) }

/-- The effect of a successful `os.WriteFile(name, data, 0755)`: the file that `name` resolves to
holds exactly `data`. -/
def FS.WriteFile (fs : FS) (name data : GoString) : FS :=
  { fs with files := fun p => if p = Abs fs.wd name then some data else fs.files p }

/-- When the two filesystem calls fail: for the filesystem as it is and the arguments of the call,
the text of the error returned, if any.  A call that fails leaves the filesystem as it was. -/
structure Faults where
  MkdirAll : FS → GoString → Option GoString
  WriteFile : FS → GoString → GoString → Option GoString

/-- The filesystem on which no directory creation and no file write fails. -/
def noFaults : Faults := ⟨fun _ _ => none, fun _ _ _ => none⟩

/-- The two aborts of `write`, each with the path and the error that its message carries. -/
inductive WritePanic where
  /-- Line 70: `PanicErr(fmt.Errorf("create directory %s: %w", filepath.Dir(out), err))`. -/
  | DirectoryCreationFailure (dir err : GoString)
  /-- Line 77: `PanicErr(fmt.Errorf("write file to %s: %w", out, err))`. -/
  | FileWriteFailure (out err : GoString)
  deriving DecidableEq

/-- What the write pass leaves behind: the filesystem, and the abort if there was one. -/
structure WriteResult where
  fs : FS
  panic : Option WritePanic

/-- The loop of `FilePool.write` over the pairs of `f.m` in the order `range` yields them (the
debug log line left out). -/
def writeLoop (faults : Faults) (outputDir : GoString) : GoMap → FS → WriteResult
  | [], fs => ⟨fs, none⟩
  | (file, contents) :: rest, fs =>
    let out := Join [outputDir, file]
    match faults.MkdirAll fs (Dir out) with
    | some err => ⟨fs, some (.DirectoryCreationFailure (Dir out) err)⟩
    | none =>
      let fs1 := fs.MkdirAll (Dir out)
      match faults.WriteFile fs1 out contents with
      | some err => ⟨fs1, some (.FileWriteFailure out err)⟩
      | none => writeLoop faults outputDir rest (fs1.WriteFile out contents)

/-- The method `FilePool.write`, the map ranged over in the order of its list. -/
def FilePool.write (f : FilePool) (faults : Faults) (outputDir : GoString) (fs : FS) :
    WriteResult :=
  writeLoop faults outputDir f.m fs

/-- No two pairs of the map resolve to the same file under `outputDir`, for a process whose
working directory is `wd`: the files are compared, not the names that `filepath.Join` gives. -/
def NoOverwrite (wd outputDir : GoString) (m : GoMap) : Prop :=
  m.Pairwise (fun a b => Abs wd (Join [outputDir, a.1]) ≠ Abs wd (Join [outputDir, b.1]))

instance (wd outputDir : GoString) (m : GoMap) : Decidable (NoOverwrite wd outputDir m) := by
  unfold NoOverwrite; infer_instance

/-- The empty filesystem, seen from the working directory `wd`. -/
def emptyFS (wd : GoString) : FS := ⟨wd, fun _ => none, fun _ => false⟩

/-- Modelled from the spec: the YAML encoder is outside the source files at hand; its stream holds
`content` and it renders a comment as `# ` followed by the text and a newline. -/
def yamlEncoder (content : GoString) : Encoder :=
  ⟨.ok content, fun comment => "# ".toList ++ comment ++ "\n".toList⟩

/-- An encoder whose stream cannot be drained. -/
def brokenEncoder (err : GoString) : Encoder := ⟨.error err, fun comment => comment⟩


/-- The concatenation `EncodeComment(c1) ++ ... ++ EncodeComment(cn)` of the rendered comments, in
the order of the list (the empty string for no comment). -/
def encodedComments (e : Encoder) : List GoString → GoString
  | [] => []
  | c :: cs => e.EncodeComment c ++ encodedComments e cs

/-- The pool of the scenarios: path stack `["a","b"]`, one top-level comment `"GEN"`, nothing
staged. -/
def pool0 : FilePool := ⟨["a".toList, "b".toList], [], ["GEN".toList]⟩

/-- The first call of the scenarios: `Add("x.yaml", ...)` with path stack `["a","b"]`. -/
def callX : Call := ⟨["a".toList, "b".toList], ["GEN".toList], "x.yaml".toList,
  yamlEncoder "k: v".toList⟩

/-- A call that resolves to the path of `callX` with a file name that is not a bare name. -/
def callSubPath : Call := ⟨["a".toList], ["GEN".toList], "b/x.yaml".toList,
  yamlEncoder "k: v".toList⟩

/-- A call that resolves to the path of `callX` with an encoder whose stream fails. -/
def callBroken : Call := ⟨["a".toList, "b".toList], ["GEN".toList], "x.yaml".toList,
  brokenEncoder "EOF".toList⟩

/-- A call that resolves to the path of `callX` from another path stack, with other content. -/
def callOtherStack : Call := ⟨["a/b".toList], [], "x.yaml".toList, yamlEncoder "k: w".toList⟩

/-- A call that stages another file. -/
def callY : Call := ⟨["a".toList], [], "y.yaml".toList, yamlEncoder "".toList⟩

/-- The filesystem on which writing the file `bad` fails and nothing else does. -/
def failingWrite (bad : GoString) : Faults :=
  ⟨fun _ _ => none, fun _ name _ => if name = bad then some "no space left on device".toList
    else none⟩

/-- The filesystem on which creating the directory `bad` fails and nothing else does. -/
def failingMkdir (bad : GoString) : Faults :=
  ⟨fun _ path => if path = bad then some "permission denied".toList else none,
   fun _ _ _ => none⟩

/-- The pool of the scenarios after `Add("x.yaml", ...)` and `Add("y.yaml", ...)`. -/
def pool2 : FilePool :=
  ((pool0.Add "x.yaml".toList (yamlEncoder "k: v".toList)).pool.Add "y.yaml".toList
    (yamlEncoder "".toList)).pool

/-- A call with an empty path stack and the file name `"x"`. -/
def callPlainX : Call := ⟨[], [], "x".toList, yamlEncoder "A".toList⟩

/-- A call with the path stack `["..","out"]` and the file name `"x"`. -/
def callUpX : Call := ⟨["..".toList, "out".toList], [], "x".toList, yamlEncoder "B".toList⟩

/-- A call with the path stack `["/"]` and the file name `"x"`. -/
def callRootX : Call := ⟨["/".toList], [], "x".toList, yamlEncoder "B".toList⟩

/-- The content that a pass over `order` writes last into the file with the absolute path `p`, if
it writes there. -/
def lastWrite (wd outputDir : GoString) : GoMap → GoString → Option GoString
  | [], _ => none
  | (file, contents) :: rest, p =>
    match lastWrite wd outputDir rest p with
    | some c => some c
    | none => if p = Abs wd (Join [outputDir, file]) then some contents else none

/-- A call with the path stack `["..","..","work","gen"]` and the file name `"x"`. -/
def callAroundX : Call :=
  ⟨["..".toList, "..".toList, "work".toList, "gen".toList], [], "x".toList,
   yamlEncoder "B".toList⟩

/-- A call with the path stack `[".."]` and the file name `"x"`. -/
def callParentX : Call := ⟨["..".toList], [], "x".toList, yamlEncoder "B".toList⟩

/-- A call with an empty path stack and the file name `"z"`. -/
def callZ : Call := ⟨[], [], "z".toList, yamlEncoder "C".toList⟩

/-- The path of the file `name` directly in the directory `dir`, a cleaned path: the name alone
when there is no directory (`""`) or the directory is `"."`, the directory, a separator and the
name otherwise (the root `"/"` ends in the separator already). -/
def inDir (dir name : GoString) : GoString :=
  if dir = [] ∨ dir = ['.'] then name
  else if dir = [Separator] then Separator :: name
  else dir ++ Separator :: name

/-- The buffer of `Clean` on a path that is not rooted does not start with a separator and its
first element is not `.`. -/
def unrootedBuffer (out : GoString) : Prop :=
  out.head? ≠ some Separator ∧ out.takeWhile notSeparator ≠ ['.']

/-! ## `filepath.Clean` -/

theorem cleanLoop_nil (rooted : Bool) (fuel : Nat) (out : GoString) (dotdot : Nat) :
    cleanLoop rooted fuel [] out dotdot = out := by
  cases fuel <;> rfl

theorem cleanLoop_sep (rooted : Bool) (fuel : Nat) (c : Char) (tl out : GoString) (dotdot : Nat)
    (hsep : IsPathSeparator c = true) :
    cleanLoop rooted (fuel + 1) (c :: tl) out dotdot = cleanLoop rooted fuel tl out dotdot := by
  simp only [cleanLoop, hsep, if_true]

theorem cleanLoop_dot (rooted : Bool) (fuel : Nat) (c : Char) (tl out : GoString) (dotdot : Nat)
    (hsep : ¬ IsPathSeparator c = true) (hdot : c = '.' ∧ atEndOrSeparator tl = true) :
    cleanLoop rooted (fuel + 1) (c :: tl) out dotdot = cleanLoop rooted fuel tl out dotdot := by
  simp only [cleanLoop]
  rw [if_neg hsep, if_pos hdot]

theorem cleanLoop_dotdot (rooted : Bool) (fuel : Nat) (c : Char) (tl out : GoString)
    (dotdot : Nat) (hsep : ¬ IsPathSeparator c = true)
    (hdot : ¬ (c = '.' ∧ atEndOrSeparator tl = true))
    (hdd : c = '.' ∧ tl.head? = some '.' ∧ atEndOrSeparator tl.tail = true) :
    cleanLoop rooted (fuel + 1) (c :: tl) out dotdot =
      cleanLoop rooted fuel tl.tail (dotdotStep rooted out dotdot).1
        (dotdotStep rooted out dotdot).2 := by
  simp only [cleanLoop]
  rw [if_neg hsep, if_neg hdot, if_pos hdd]

theorem cleanLoop_elem (rooted : Bool) (fuel : Nat) (c : Char) (tl out : GoString)
    (dotdot : Nat) (hsep : ¬ IsPathSeparator c = true)
    (hdot : ¬ (c = '.' ∧ atEndOrSeparator tl = true))
    (hdd : ¬ (c = '.' ∧ tl.head? = some '.' ∧ atEndOrSeparator tl.tail = true)) :
    cleanLoop rooted (fuel + 1) (c :: tl) out dotdot =
      cleanLoop rooted fuel ((c :: tl).dropWhile notSeparator)
        (addSlash rooted out ++ (c :: tl).takeWhile notSeparator) dotdot := by
  simp only [cleanLoop]
  rw [if_neg hsep, if_neg hdot, if_neg hdd]

theorem length_dropWhile_notSeparator (c : Char) (tl : GoString)
    (hsep : ¬ IsPathSeparator c = true) :
    ((c :: tl).dropWhile notSeparator).length ≤ tl.length := by
  have hc : notSeparator c = true := by simp [notSeparator, hsep]
  rw [List.dropWhile_cons_of_pos hc]
  exact (List.dropWhile_sublist _).length_le

/-- The loop of `Clean` never runs out of iterations: with at least as many as bytes are left,
the result is the same whatever the number. -/
theorem cleanLoop_fuel (rooted : Bool) (fuel1 fuel2 : Nat) (rest out : GoString) (dotdot : Nat)
    (h1 : rest.length ≤ fuel1) (h2 : rest.length ≤ fuel2) :
    cleanLoop rooted fuel1 rest out dotdot = cleanLoop rooted fuel2 rest out dotdot := by
  induction fuel1 generalizing fuel2 rest out dotdot with
  | zero =>
    have : rest = [] := List.length_eq_zero.mp (Nat.le_zero.mp h1)
    subst this
    rw [cleanLoop_nil, cleanLoop_nil]
  | succ n ih =>
    cases rest with
    | nil => rw [cleanLoop_nil, cleanLoop_nil]
    | cons c tl =>
      obtain ⟨m, rfl⟩ : ∃ m, fuel2 = m + 1 := ⟨fuel2 - 1, by simp at h2; omega⟩
      simp only [List.length_cons] at h1 h2
      by_cases hsep : IsPathSeparator c = true
      · rw [cleanLoop_sep _ _ _ _ _ _ hsep, cleanLoop_sep _ _ _ _ _ _ hsep]
        exact ih _ _ _ _ (by omega) (by omega)
      · by_cases hdot : c = '.' ∧ atEndOrSeparator tl = true
        · rw [cleanLoop_dot _ _ _ _ _ _ hsep hdot, cleanLoop_dot _ _ _ _ _ _ hsep hdot]
          exact ih _ _ _ _ (by omega) (by omega)
        · by_cases hdd : c = '.' ∧ tl.head? = some '.' ∧ atEndOrSeparator tl.tail = true
          · rw [cleanLoop_dotdot _ _ _ _ _ _ hsep hdot hdd,
              cleanLoop_dotdot _ _ _ _ _ _ hsep hdot hdd]
            have : tl.tail.length ≤ tl.length := by simp
            exact ih _ _ _ _ (by omega) (by omega)
          · rw [cleanLoop_elem _ _ _ _ _ _ hsep hdot hdd,
              cleanLoop_elem _ _ _ _ _ _ hsep hdot hdd]
            have := length_dropWhile_notSeparator c tl hsep
            exact ih _ _ _ _ (by omega) (by omega)

theorem atEndOrSeparator_append (tl t : GoString) :
    atEndOrSeparator (tl ++ Separator :: t) = atEndOrSeparator tl := by
  cases tl with
  | nil => simp [atEndOrSeparator, IsPathSeparator]
  | cons x xs => simp [atEndOrSeparator]

theorem dotdot_test_append (c : Char) (tl t : GoString) :
    (c = '.' ∧ (tl ++ Separator :: t).head? = some '.' ∧
        atEndOrSeparator (tl ++ Separator :: t).tail = true) ↔
    (c = '.' ∧ tl.head? = some '.' ∧ atEndOrSeparator tl.tail = true) := by
  cases tl with
  | nil =>
    have : Separator ≠ '.' := by decide
    simp [this]
  | cons x xs => simp [atEndOrSeparator_append]

theorem takeWhile_notSeparator_append (l t : GoString) :
    (l ++ Separator :: t).takeWhile notSeparator = l.takeWhile notSeparator := by
  induction l with
  | nil => simp [notSeparator, IsPathSeparator]
  | cons x xs ih =>
    by_cases hx : notSeparator x = true
    · simp [List.takeWhile_cons_of_pos hx, ih]
    · simp [List.takeWhile_cons_of_neg hx]

theorem dropWhile_notSeparator_append (l t : GoString) :
    (l ++ Separator :: t).dropWhile notSeparator = l.dropWhile notSeparator ++ Separator :: t := by
  induction l with
  | nil => simp [notSeparator, IsPathSeparator]
  | cons x xs ih =>
    by_cases hx : notSeparator x = true
    · simp [List.dropWhile_cons_of_pos hx, ih]
    · simp [List.dropWhile_cons_of_neg hx]

/-- A path element that takes the default branch of `Clean`: not empty, without separator, and
neither `.` nor `..`. -/
theorem plain_tests (c : Char) (tl : GoString)
    (hnosep : ∀ x ∈ c :: tl, notSeparator x = true)
    (hdot : c :: tl ≠ ['.']) (hdotdot : c :: tl ≠ ['.', '.']) :
    ¬ IsPathSeparator c = true ∧ ¬ (c = '.' ∧ atEndOrSeparator tl = true) ∧
    ¬ (c = '.' ∧ tl.head? = some '.' ∧ atEndOrSeparator tl.tail = true) := by
  have hend : ∀ l : GoString, (∀ x ∈ l, notSeparator x = true) → atEndOrSeparator l = true →
      l = [] := by
    intro l hl he
    cases l with
    | nil => rfl
    | cons y ys =>
      have := hl y (by simp)
      simp [atEndOrSeparator, notSeparator] at he this
      rw [he] at this
      exact absurd this (by simp)
  refine ⟨?_, ?_, ?_⟩
  · have := hnosep c (by simp)
    simpa [notSeparator] using this
  · rintro ⟨hc, he⟩
    have := hend tl (fun x hx => hnosep x (List.mem_cons_of_mem _ hx)) he
    exact hdot (by rw [hc, this])
  · rintro ⟨hc, hh, he⟩
    cases tl with
    | nil => simp at hh
    | cons y ys =>
      simp only [List.head?_cons, Option.some.injEq] at hh
      simp only [List.tail_cons] at he
      have := hend ys (fun x hx => hnosep x
        (List.mem_cons_of_mem _ (List.mem_cons_of_mem _ hx))) he
      exact hdotdot (by rw [hc, hh, this])

/-- The loop of `Clean` on one plain element: the separator if needed, then the element. -/
theorem cleanLoop_plain (rooted : Bool) (fuel : Nat) (name out : GoString) (dotdot : Nat)
    (hfuel : name.length ≤ fuel) (hne : name ≠ [])
    (hnosep : ∀ x ∈ name, notSeparator x = true)
    (hdot : name ≠ ['.']) (hdotdot : name ≠ ['.', '.']) :
    cleanLoop rooted fuel name out dotdot = addSlash rooted out ++ name := by
  cases name with
  | nil => exact absurd rfl hne
  | cons c tl =>
    obtain ⟨n, rfl⟩ : ∃ n, fuel = n + 1 := ⟨fuel - 1, by simp at hfuel; omega⟩
    obtain ⟨h1, h2, h3⟩ := plain_tests c tl hnosep hdot hdotdot
    rw [cleanLoop_elem _ _ _ _ _ _ h1 h2 h3]
    have htake : (c :: tl).takeWhile notSeparator = c :: tl :=
      List.takeWhile_eq_self_iff.mpr hnosep
    have hdrop : (c :: tl).dropWhile notSeparator = [] :=
      List.dropWhile_eq_nil_iff.mpr hnosep
    rw [htake, hdrop, cleanLoop_nil]

/-- The loop of `Clean` on a path followed by a separator and one plain element: what the loop
makes of the path, then the separator if needed, then the element. -/
theorem cleanLoop_snoc (rooted : Bool) (name : GoString) (hne : name ≠ [])
    (hnosep : ∀ x ∈ name, notSeparator x = true)
    (hdot : name ≠ ['.']) (hdotdot : name ≠ ['.', '.'])
    (fuel1 fuel2 : Nat) (rest out : GoString) (dotdot : Nat)
    (h1 : (rest ++ Separator :: name).length ≤ fuel1) (h2 : rest.length ≤ fuel2) :
    cleanLoop rooted fuel1 (rest ++ Separator :: name) out dotdot
      = addSlash rooted (cleanLoop rooted fuel2 rest out dotdot) ++ name := by
  induction fuel1 generalizing fuel2 rest out dotdot with
  | zero => simp at h1
  | succ n ih =>
    have hS : IsPathSeparator Separator = true := by simp [IsPathSeparator]
    cases rest with
    | nil =>
      simp only [List.nil_append, List.length_cons] at h1 ⊢
      rw [cleanLoop_sep _ _ _ _ _ _ hS, cleanLoop_nil]
      exact cleanLoop_plain rooted n name out dotdot (by omega) hne hnosep hdot hdotdot
    | cons c tl =>
      obtain ⟨m, rfl⟩ : ∃ m, fuel2 = m + 1 := ⟨fuel2 - 1, by simp at h2; omega⟩
      simp only [List.cons_append, List.length_cons, List.length_append] at h1 h2 ⊢
      by_cases hsep : IsPathSeparator c = true
      · rw [cleanLoop_sep _ _ _ _ _ _ hsep, cleanLoop_sep _ _ _ _ _ _ hsep]
        exact ih _ _ _ _ (by simp; omega) (by omega)
      · by_cases hdt : c = '.' ∧ atEndOrSeparator tl = true
        · have hdt2 : c = '.' ∧ atEndOrSeparator (tl ++ Separator :: name) = true := by
            rw [atEndOrSeparator_append]; exact hdt
          rw [cleanLoop_dot _ _ _ _ _ _ hsep hdt, cleanLoop_dot _ _ _ _ _ _ hsep hdt2]
          exact ih _ _ _ _ (by simp; omega) (by omega)
        · have hdt2 : ¬ (c = '.' ∧ atEndOrSeparator (tl ++ Separator :: name) = true) := by
            rw [atEndOrSeparator_append]; exact hdt
          by_cases hdd : c = '.' ∧ tl.head? = some '.' ∧ atEndOrSeparator tl.tail = true
          · have hdd2 := (dotdot_test_append c tl name).mpr hdd
            rw [cleanLoop_dotdot _ _ _ _ _ _ hsep hdt hdd,
              cleanLoop_dotdot _ _ _ _ _ _ hsep hdt2 hdd2]
            obtain ⟨y, ys, rfl⟩ : ∃ y ys, tl = y :: ys := by
              cases tl with
              | nil => simp at hdd
              | cons y ys => exact ⟨y, ys, rfl⟩
            simp only [List.cons_append, List.tail_cons, List.length_cons] at h1 h2 ⊢
            exact ih _ _ _ _ (by simp; omega) (by omega)
          · have hdd2 : ¬ (c = '.' ∧ (tl ++ Separator :: name).head? = some '.' ∧
                atEndOrSeparator (tl ++ Separator :: name).tail = true) :=
              fun h => hdd ((dotdot_test_append c tl name).mp h)
            rw [cleanLoop_elem _ _ _ _ _ _ hsep hdt hdd,
              cleanLoop_elem _ _ _ _ _ _ hsep hdt2 hdd2]
            have hlen := length_dropWhile_notSeparator c tl hsep
            rw [← List.cons_append, takeWhile_notSeparator_append,
              dropWhile_notSeparator_append]
            exact ih _ _ _ _ (by simp; omega) (by omega)

theorem backtrack_spec (buf : GoString) (dotdot w0 : Nat) (h : dotdot ≤ w0) :
    dotdot ≤ backtrack buf dotdot w0 ∧ backtrack buf dotdot w0 ≤ w0 ∧
    (backtrack buf dotdot w0 = dotdot ∨
      IsPathSeparator (buf.getD (backtrack buf dotdot w0) Separator) = true) := by
  induction w0 with
  | zero =>
    have : dotdot = 0 := Nat.le_zero.mp h
    subst this
    simp [backtrack]
  | succ w ih =>
    unfold backtrack
    by_cases hc : w + 1 > dotdot ∧ notSeparator (buf.getD (w + 1) Separator) = true
    · rw [if_pos hc]
      obtain ⟨h1, h2, h3⟩ := ih (by omega)
      exact ⟨h1, by omega, h3⟩
    · rw [if_neg hc]
      refine ⟨h, Nat.le_refl _, ?_⟩
      by_cases hw : w + 1 > dotdot
      · right
        have : ¬ notSeparator (buf.getD (w + 1) Separator) = true := fun hn => hc ⟨hw, hn⟩
        simpa [notSeparator] using this
      · left; omega

theorem takeWhile_take_separator (out : GoString) (w : Nat)
    (hw : IsPathSeparator (out.getD w Separator) = true) :
    (out.take w).takeWhile notSeparator = out.takeWhile notSeparator := by
  induction out generalizing w with
  | nil => simp
  | cons x xs ih =>
    cases w with
    | zero =>
      simp only [List.getD_cons_zero] at hw
      have : ¬ notSeparator x = true := by simp [notSeparator, hw]
      simp [List.takeWhile_cons_of_neg this]
    | succ w =>
      simp only [List.getD_cons_succ] at hw
      simp only [List.take_succ_cons, List.takeWhile_cons, ih w hw]

/-- On a rooted path the buffer of `Clean` always starts with the separator. -/
theorem cleanLoop_rooted_head (fuel : Nat) (rest out : GoString)
    (hhead : out.head? = some Separator) :
    (cleanLoop true fuel rest out 1).head? = some Separator := by
  induction fuel generalizing rest out with
  | zero => exact hhead
  | succ n ih =>
    cases rest with
    | nil => rw [cleanLoop_nil]; exact hhead
    | cons c tl =>
      obtain ⟨x, xs, rfl⟩ : ∃ x xs, out = x :: xs := by
        cases out with
        | nil => simp at hhead
        | cons x xs => exact ⟨x, xs, rfl⟩
      by_cases hsep : IsPathSeparator c = true
      · rw [cleanLoop_sep _ _ _ _ _ _ hsep]; exact ih _ _ hhead
      · by_cases hdt : c = '.' ∧ atEndOrSeparator tl = true
        · rw [cleanLoop_dot _ _ _ _ _ _ hsep hdt]; exact ih _ _ hhead
        · by_cases hdd : c = '.' ∧ tl.head? = some '.' ∧ atEndOrSeparator tl.tail = true
          · rw [cleanLoop_dotdot _ _ _ _ _ _ hsep hdt hdd]
            unfold dotdotStep
            by_cases hlen : (x :: xs).length > 1
            · rw [if_pos hlen]
              apply ih
              obtain ⟨h1, _, _⟩ := backtrack_spec (x :: xs) 1 ((x :: xs).length - 1)
                (by simp at hlen ⊢; omega)
              obtain ⟨w, hw⟩ : ∃ w, backtrack (x :: xs) 1 ((x :: xs).length - 1) = w + 1 :=
                ⟨_, (Nat.sub_add_cancel h1).symm⟩
              rw [hw]
              simpa using hhead
            · rw [if_neg hlen]
              simp only [Bool.true_eq_false, if_false]
              exact ih _ _ hhead
          · rw [cleanLoop_elem _ _ _ _ _ _ hsep hdt hdd]
            apply ih
            unfold addSlash
            split <;> simpa using hhead

theorem unrootedBuffer_nil : unrootedBuffer [] := by
  simp [unrootedBuffer]

theorem unrootedBuffer_append (out t : GoString) (hne : out ≠ []) (h : unrootedBuffer out) :
    unrootedBuffer (out ++ Separator :: t) := by
  obtain ⟨x, xs, rfl⟩ : ∃ x xs, out = x :: xs := by
    cases out with
    | nil => exact absurd rfl hne
    | cons x xs => exact ⟨x, xs, rfl⟩
  refine ⟨by simpa [unrootedBuffer] using h.1, ?_⟩
  rw [takeWhile_notSeparator_append]
  exact h.2

/-- On a path that is not rooted the buffer of `Clean` never starts with a separator and never
has `.` as its first element. -/
theorem cleanLoop_unrooted (fuel : Nat) (rest out : GoString) (dotdot : Nat)
    (hdd : dotdot ≤ out.length) (hout : unrootedBuffer out)
    (hupto : unrootedBuffer (out.take dotdot)) :
    unrootedBuffer (cleanLoop false fuel rest out dotdot) := by
  induction fuel generalizing rest out dotdot with
  | zero => exact hout
  | succ n ih =>
    cases rest with
    | nil => rw [cleanLoop_nil]; exact hout
    | cons c tl =>
      by_cases hsep : IsPathSeparator c = true
      · rw [cleanLoop_sep _ _ _ _ _ _ hsep]; exact ih _ _ _ hdd hout hupto
      · by_cases hdt : c = '.' ∧ atEndOrSeparator tl = true
        · rw [cleanLoop_dot _ _ _ _ _ _ hsep hdt]; exact ih _ _ _ hdd hout hupto
        · by_cases hdot2 : c = '.' ∧ tl.head? = some '.' ∧ atEndOrSeparator tl.tail = true
          · rw [cleanLoop_dotdot _ _ _ _ _ _ hsep hdt hdot2]
            unfold dotdotStep
            by_cases hlen : out.length > dotdot
            · rw [if_pos hlen]
              obtain ⟨h1, h2, h3⟩ := backtrack_spec out dotdot (out.length - 1) (by omega)
              generalize backtrack out dotdot (out.length - 1) = w at h1 h2 h3
              have hpre : (out.take w).take dotdot = out.take dotdot := by
                rw [List.take_take, Nat.min_eq_left h1]
              apply ih
              · simp only [List.length_take]; omega
              · rcases h3 with h3 | h3
                · rw [h3]; exact hupto
                · refine ⟨?_, ?_⟩
                  · cases w with
                    | zero => simp
                    | succ w =>
                      cases out with
                      | nil => simp
                      | cons x xs => simpa [unrootedBuffer] using hout.1
                  · rw [takeWhile_take_separator out w h3]; exact hout.2
              · simp only; rw [hpre]; exact hupto
            · rw [if_neg hlen]
              simp only [if_true]
              have hnew : unrootedBuffer
                  ((if out.length > 0 then out ++ [Separator] else out) ++ ['.', '.']) := by
                cases out with
                | nil =>
                  refine ⟨by simp; decide, ?_⟩
                  simp [notSeparator, IsPathSeparator]
                  decide
                | cons x xs =>
                  have := unrootedBuffer_append (x :: xs) ['.', '.'] (by simp) hout
                  simpa using this
              apply ih
              · exact Nat.le_refl _
              · exact hnew
              · rw [List.take_length]; exact hnew
          · rw [cleanLoop_elem _ _ _ _ _ _ hsep hdt hdot2]
            have hc : notSeparator c = true := by simp [notSeparator, hsep]
            cases out with
            | nil =>
              have hz : dotdot = 0 := by simpa using hdd
              subst hz
              apply ih
              · exact Nat.zero_le _
              · simp only [addSlash, List.length_nil, List.nil_append]
                rw [if_neg (by simp), List.nil_append, List.takeWhile_cons_of_pos hc]
                refine ⟨?_, ?_⟩
                · simp only [List.head?_cons, ne_eq, Option.some.injEq]
                  intro hcs
                  rw [hcs] at hsep
                  exact hsep (by simp [IsPathSeparator])
                · rw [List.takeWhile_cons_of_pos hc]
                  intro heq
                  simp only [List.cons.injEq] at heq
                  apply hdt
                  refine ⟨heq.1, ?_⟩
                  have htl := heq.2
                  cases tl with
                  | nil => rfl
                  | cons y ys =>
                    by_cases hy : notSeparator y = true
                    · simp [List.takeWhile_cons_of_pos hy] at htl
                    · simpa [atEndOrSeparator, notSeparator] using hy
              · simpa using unrootedBuffer_nil
            | cons x xs =>
              have hslash : addSlash false (x :: xs) = (x :: xs) ++ [Separator] := by
                simp [addSlash]
              rw [hslash, List.append_assoc, List.singleton_append]
              apply ih
              · simp only [List.length_append, List.length_cons] at hdd ⊢; omega
              · exact unrootedBuffer_append _ _ (by simp) hout
              · rw [List.take_append_of_le_length hdd]; exact hupto

/-- The function `Clean` on one plain element returns it. -/
theorem Clean_plain (name : GoString) (hne : name ≠ [])
    (hnosep : ∀ x ∈ name, notSeparator x = true)
    (hdot : name ≠ ['.']) (hdotdot : name ≠ ['.', '.']) : Clean name = name := by
  obtain ⟨c, tl, rfl⟩ : ∃ c tl, name = c :: tl := by
    cases name with
    | nil => exact absurd rfl hne
    | cons c tl => exact ⟨c, tl, rfl⟩
  have hc : IsPathSeparator c = false := by
    have := hnosep c (by simp)
    simpa [notSeparator] using this
  unfold Clean
  rw [if_neg hne]
  simp only [List.head?_cons, Option.any_some, hc, Bool.false_eq_true, if_false]
  rw [cleanLoop_plain false _ (c :: tl) [] 0 (Nat.le_refl _) hne hnosep hdot hdotdot]
  simp [addSlash]

theorem Clean_cons_rooted (c : Char) (tl : GoString) (hc : IsPathSeparator c = true) :
    Clean (c :: tl) =
      if cleanLoop true (c :: tl).length tl [Separator] 1 = [] then ['.']
      else cleanLoop true (c :: tl).length tl [Separator] 1 := by
  unfold Clean
  rw [if_neg (by simp)]
  simp only [List.head?_cons, Option.any_some, hc, if_true, List.tail_cons]

theorem Clean_cons_unrooted (c : Char) (tl : GoString) (hc : ¬ IsPathSeparator c = true) :
    Clean (c :: tl) =
      if cleanLoop false (c :: tl).length (c :: tl) [] 0 = [] then ['.']
      else cleanLoop false (c :: tl).length (c :: tl) [] 0 := by
  have hc2 : IsPathSeparator c = false := by simpa using hc
  unfold Clean
  rw [if_neg (by simp)]
  simp only [List.head?_cons, Option.any_some, hc2, Bool.false_eq_true, if_false]

/-- The function `Clean` on a non-empty path followed by a separator and one plain element: the
element directly in the cleaned path. -/
theorem Clean_snoc (path name : GoString) (hpath : path ≠ []) (hne : name ≠ [])
    (hnosep : ∀ x ∈ name, notSeparator x = true)
    (hdot : name ≠ ['.']) (hdotdot : name ≠ ['.', '.']) :
    Clean (path ++ Separator :: name) = inDir (Clean path) name := by
  obtain ⟨c, tl, rfl⟩ : ∃ c tl, path = c :: tl := by
    cases path with
    | nil => exact absurd rfl hpath
    | cons c tl => exact ⟨c, tl, rfl⟩
  have hSdot : Separator ≠ '.' := by decide
  have hdotS : '.' ≠ Separator := by decide
  rw [List.cons_append]
  by_cases hc : IsPathSeparator c = true
  · have e1 := cleanLoop_snoc true name hne hnosep hdot hdotdot
      (c :: (tl ++ Separator :: name)).length (c :: tl).length tl [Separator] 1
      (by simp) (by simp)
    rw [Clean_cons_rooted _ _ hc, Clean_cons_rooted _ _ hc, e1]
    have hhead := cleanLoop_rooted_head (c :: tl).length tl [Separator] rfl
    generalize cleanLoop true (c :: tl).length tl [Separator] 1 = o at hhead
    obtain ⟨x, xs, rfl⟩ : ∃ x xs, o = x :: xs := by
      cases o with
      | nil => simp at hhead
      | cons x xs => exact ⟨x, xs, rfl⟩
    have hx : x = Separator := by simpa using hhead
    subst hx
    rw [if_neg (by simp [hne]), if_neg (by simp)]
    cases xs with
    | nil => simp [inDir, addSlash, hSdot]
    | cons y ys => simp [inDir, addSlash]
  · have e1 := cleanLoop_snoc false name hne hnosep hdot hdotdot
      (c :: (tl ++ Separator :: name)).length (c :: tl).length (c :: tl) [] 0
      (by simp) (Nat.le_refl _)
    rw [List.cons_append] at e1
    rw [Clean_cons_unrooted _ _ hc, Clean_cons_unrooted _ _ hc, e1]
    have hinv := cleanLoop_unrooted (c :: tl).length (c :: tl) [] 0 (Nat.zero_le _)
      unrootedBuffer_nil (by simpa using unrootedBuffer_nil)
    generalize cleanLoop false (c :: tl).length (c :: tl) [] 0 = o at hinv
    rw [if_neg (by simp [hne])]
    cases o with
    | nil => simp [addSlash, inDir]
    | cons x xs =>
      have h1 : x :: xs ≠ ['.'] := by
        intro h
        apply hinv.2
        rw [h]
        have : notSeparator '.' = true := by decide
        simp [List.takeWhile_cons_of_pos this]
      have h2 : x :: xs ≠ [Separator] := by
        intro h
        apply hinv.1
        rw [h]
        rfl
      have ha : addSlash false (x :: xs) = (x :: xs) ++ [Separator] := by simp [addSlash]
      have hi : inDir (x :: xs) name = (x :: xs) ++ Separator :: name := by
        have h0 : ¬ (x :: xs = [] ∨ x :: xs = ['.']) := by
          rintro (h | h)
          · exact absurd h (by simp)
          · exact h1 h
        unfold inDir
        rw [if_neg h0, if_neg h2]
      rw [if_neg (List.cons_ne_nil x xs), ha, hi]
      simp

theorem stringsJoin_snoc (elem : List GoString) (name sep : GoString) (helem : elem ≠ []) :
    stringsJoin (elem ++ [name]) sep = stringsJoin elem sep ++ sep ++ name := by
  induction elem with
  | nil => exact absurd rfl helem
  | cons e rest ih =>
    cases rest with
    | nil => simp [stringsJoin]
    | cons e2 rest2 =>
      have := ih (by simp)
      simp only [List.cons_append] at this ⊢
      simp only [stringsJoin, this, List.append_assoc]

theorem stringsJoin_ne_nil (e : GoString) (rest : List GoString) (sep : GoString)
    (he : e ≠ []) : stringsJoin (e :: rest) sep ≠ [] := by
  cases rest with
  | nil => simpa [stringsJoin] using he
  | cons e2 rest2 => simp [stringsJoin, he]

theorem Join_cons_empty (rest : List GoString) : Join ([] :: rest) = Join rest := by
  simp only [Join]
  rw [if_neg (by simp)]

theorem Join_cons_ne (e : GoString) (rest : List GoString) (he : e ≠ []) :
    Join (e :: rest) = Clean (stringsJoin (e :: rest) [Separator]) := by
  simp only [Join]
  rw [if_pos he]

/-- The function `Join` on a path stack followed by one plain element: the element directly in
the directory that the stack joins to. -/
theorem Join_snoc (elem : List GoString) (name : GoString) (hne : name ≠ [])
    (hnosep : ∀ x ∈ name, notSeparator x = true)
    (hdot : name ≠ ['.']) (hdotdot : name ≠ ['.', '.']) :
    Join (elem ++ [name]) = inDir (Join elem) name := by
  induction elem with
  | nil =>
    rw [List.nil_append, Join_cons_ne name [] hne]
    simp only [stringsJoin]
    rw [Clean_plain name hne hnosep hdot hdotdot]
    simp [inDir, Join]
  | cons e rest ih =>
    by_cases he : e = []
    · subst he
      rw [List.cons_append, Join_cons_empty, Join_cons_empty]
      exact ih
    · rw [Join_cons_ne e rest he, List.cons_append, Join_cons_ne e _ he, ← List.cons_append,
        stringsJoin_snoc _ _ _ (by simp), List.append_assoc, List.singleton_append]
      exact Clean_snoc _ name (stringsJoin_ne_nil e rest _ he) hne hnosep hdot hdotdot

/-- A name that is its own base name and is not `"/"` is not empty and has no separator. -/
theorem Base_fixed (name : GoString) (hbase : Base name = name) (hslash : name ≠ [Separator]) :
    name ≠ [] ∧ ∀ x ∈ name, notSeparator x = true := by
  unfold Base at hbase
  by_cases hn : name = []
  · rw [if_pos hn, hn] at hbase
    exact absurd hbase (by simp)
  · rw [if_neg hn] at hbase
    refine ⟨hn, ?_⟩
    simp only at hbase
    by_cases hl : (name.rdropWhile IsPathSeparator).rtakeWhile notSeparator = []
    · rw [if_pos hl] at hbase
      exact absurd hbase.symm hslash
    · rw [if_neg hl] at hbase
      intro x hx
      rw [← hbase] at hx
      exact List.mem_rtakeWhile_imp hx

/-- The base name of a plain element that follows a separator, or nothing, is the element. -/
theorem Base_after_separator (pre name : GoString) (hne : name ≠ [])
    (hnosep : ∀ x ∈ name, notSeparator x = true)
    (hpre : pre = [] ∨ ∃ q, pre = q ++ [Separator]) : Base (pre ++ name) = name := by
  have hlast : notSeparator ((pre ++ name).getLast (by simp [hne])) = true := by
    rw [List.getLast_append_of_ne_nil hne]
    exact hnosep _ (List.getLast_mem hne)
  have hstrip : (pre ++ name).rdropWhile IsPathSeparator = pre ++ name := by
    rw [List.rdropWhile_eq_self_iff]
    intro _
    simpa [notSeparator] using hlast
  have htake : (pre ++ name).rtakeWhile notSeparator = name := by
    unfold List.rtakeWhile
    rw [List.reverse_append, List.takeWhile_append_of_pos
      (fun a ha => hnosep a (List.mem_reverse.mp ha))]
    rcases hpre with h | ⟨q, h⟩
    · subst h; simp
    · subst h
      simp [notSeparator, IsPathSeparator]
  unfold Base
  rw [if_neg (by simp [hne])]
  simp only [hstrip, htake]
  rw [if_neg hne]

theorem Base_inDir (dir name : GoString) (hne : name ≠ [])
    (hnosep : ∀ x ∈ name, notSeparator x = true) : Base (inDir dir name) = name := by
  unfold inDir
  split
  · simpa using Base_after_separator [] name hne hnosep (Or.inl rfl)
  · split
    · exact Base_after_separator [Separator] name hne hnosep (Or.inr ⟨[], rfl⟩)
    · have := Base_after_separator (dir ++ [Separator]) name hne hnosep (Or.inr ⟨dir, rfl⟩)
      simpa using this

theorem head_inDir (dir name : GoString) (hne : name ≠ [])
    (hnosep : ∀ x ∈ name, notSeparator x = true) :
    (inDir dir name).head? = some Separator ↔ dir.head? = some Separator := by
  obtain ⟨c, tl, rfl⟩ : ∃ c tl, name = c :: tl := by
    cases name with
    | nil => exact absurd rfl hne
    | cons c tl => exact ⟨c, tl, rfl⟩
  have hc : c ≠ Separator := by
    have := hnosep c (by simp)
    intro h
    rw [h] at this
    simp [notSeparator, IsPathSeparator] at this
  have hSdot : ¬ '.' = Separator := by decide
  unfold inDir
  by_cases h1 : dir = [] ∨ dir = ['.']
  · rw [if_pos h1]
    rcases h1 with h | h <;> subst h <;> simp [hc, hSdot]
  · rw [if_neg h1]
    by_cases h2 : dir = [Separator]
    · rw [if_pos h2, h2]; simp
    · rw [if_neg h2]
      cases dir with
      | nil => simp at h1
      | cons x xs => simp

/-! ## Maps -/

theorem mapGet_mapSet_self (m : GoMap) (k v : GoString) : mapGet (mapSet m k v) k = some v := by
  induction m with
  | nil => simp [mapSet, mapGet]
  | cons kv rest ih =>
    obtain ⟨k1, v1⟩ := kv
    by_cases h : k1 = k
    · simp [mapSet, mapGet, h]
    · simp [mapSet, mapGet, h, ih]

theorem mapGet_mapSet_ne (m : GoMap) (k v k2 : GoString) (hne : k2 ≠ k) :
    mapGet (mapSet m k v) k2 = mapGet m k2 := by
  induction m with
  | nil => simp [mapSet, mapGet, Ne.symm hne]
  | cons kv rest ih =>
    obtain ⟨k1, v1⟩ := kv
    by_cases h : k1 = k
    · subst h
      simp [mapSet, mapGet, Ne.symm hne]
    · by_cases h2 : k1 = k2
      · subst h2
        simp [mapSet, mapGet, h]
      · simp [mapSet, mapGet, h, h2, ih]

theorem mapSet_fresh (m : GoMap) (k v : GoString) (hfresh : mapGet m k = none) :
    mapSet m k v = m ++ [(k, v)] := by
  induction m with
  | nil => rfl
  | cons kv rest ih =>
    obtain ⟨k1, v1⟩ := kv
    by_cases h : k1 = k
    · simp [mapGet, h] at hfresh
    · simp only [mapGet, h, if_false] at hfresh
      simp [mapSet, h, ih hfresh]

/-! ## `Add` -/

theorem foldl_comments (e : Encoder) (cs : List GoString) (acc : GoString) :
    cs.foldl (fun commentBytes comment => commentBytes ++ e.EncodeComment comment) acc
      = acc ++ encodedComments e cs := by
  induction cs generalizing acc with
  | nil => simp [encodedComments]
  | cons c cs ih => simp [encodedComments, ih]

/-- The three ways through `Add` after the file-name check. -/
theorem Add_of_valid (f : FilePool) (fileName : GoString) (e : Encoder) (b : GoString)
    (hname : Base fileName = fileName) (hread : e.ReadAll = .ok b) :
    f.Add fileName e =
      if (mapGet f.m (Join (f.path ++ [fileName]))).isSome = true
      then ⟨f, some (.FilenameClash (Join (f.path ++ [fileName])))⟩
      else ⟨⟨f.path, mapSet f.m (Join (f.path ++ [fileName]))
                (encodedComments e f.topLevelComments ++ b), f.topLevelComments⟩, none⟩ := by
  have hcontent : (if f.topLevelComments.length > 0 then
      f.topLevelComments.foldl (fun commentBytes comment =>
        commentBytes ++ e.EncodeComment comment) [] ++ b else b)
      = encodedComments e f.topLevelComments ++ b := by
    cases hcs : f.topLevelComments with
    | nil => simp [encodedComments]
    | cons c cs => simp [foldl_comments, encodedComments]
  unfold FilePool.Add
  rw [if_neg (not_not.mpr hname)]
  simp only [hread, hcontent]

theorem Add_of_invalid (f : FilePool) (fileName : GoString) (e : Encoder)
    (hname : Base fileName ≠ fileName) : f.Add fileName e = ⟨f, some .InvalidFileName⟩ := by
  unfold FilePool.Add
  rw [if_pos hname]

theorem Add_of_unread (f : FilePool) (fileName : GoString) (e : Encoder) (err : GoString)
    (hname : Base fileName = fileName) (hread : e.ReadAll = .error err) :
    f.Add fileName e = ⟨f, some (.EncodingFailure err)⟩ := by
  unfold FilePool.Add
  rw [if_neg (not_not.mpr hname)]
  simp only [hread]

/-- Every abort of `Add` leaves the pool as it was. -/
theorem Add_panic_pool (f : FilePool) (fileName : GoString) (e : Encoder)
    (h : (f.Add fileName e).panic ≠ none) : (f.Add fileName e).pool = f := by
  by_cases hb : Base fileName = fileName
  · cases hr : e.ReadAll with
    | error err => rw [Add_of_unread f fileName e err hb hr]
    | ok b =>
      rw [Add_of_valid f fileName e b hb hr] at h ⊢
      by_cases hc : (mapGet f.m (Join (f.path ++ [fileName]))).isSome = true
      · rw [if_pos hc]
      · rw [if_neg hc] at h
        exact (h rfl).elim
  · rw [Add_of_invalid f fileName e hb]

/-- What a call of `Add` that does not abort has done. -/
theorem Add_ok (f : FilePool) (fileName : GoString) (e : Encoder)
    (h : (f.Add fileName e).panic = none) :
    Base fileName = fileName ∧ mapGet f.m (Join (f.path ++ [fileName])) = none ∧
    ∃ b, e.ReadAll = .ok b ∧
      (f.Add fileName e).pool =
        { f with m := f.m ++ [(Join (f.path ++ [fileName]),
                               encodedComments e f.topLevelComments ++ b)] } := by
  by_cases hb : Base fileName = fileName
  · cases hr : e.ReadAll with
    | error err =>
      rw [Add_of_unread f fileName e err hb hr] at h
      exact absurd h (by simp)
    | ok b =>
      rw [Add_of_valid f fileName e b hb hr] at h ⊢
      by_cases hc : (mapGet f.m (Join (f.path ++ [fileName]))).isSome = true
      · rw [if_pos hc] at h
        exact absurd h (by simp)
      · have hnone : mapGet f.m (Join (f.path ++ [fileName])) = none := by
          cases hg : mapGet f.m (Join (f.path ++ [fileName])) with
          | none => rfl
          | some v => simp [hg] at hc
        refine ⟨hb, hnone, b, rfl, ?_⟩
        rw [if_neg hc, mapSet_fresh _ _ _ hnone]
  · rw [Add_of_invalid f fileName e hb] at h
    exact absurd h (by simp)

/-- When `Add` does not abort. -/
theorem Add_succeeds (f : FilePool) (fileName : GoString) (e : Encoder) (b : GoString)
    (hname : Base fileName = fileName) (hread : e.ReadAll = .ok b)
    (hfresh : mapGet f.m (Join (f.path ++ [fileName])) = none) :
    (f.Add fileName e).panic = none := by
  rw [Add_of_valid f fileName e b hname hread]
  simp [hfresh]

/-- When `Add` reaches the clash check and the path is taken. -/
theorem Add_clashes (f : FilePool) (fileName : GoString) (e : Encoder) (b : GoString)
    (hname : Base fileName = fileName) (hread : e.ReadAll = .ok b)
    (htaken : (mapGet f.m (Join (f.path ++ [fileName]))).isSome = true) :
    (f.Add fileName e).panic = some (.FilenameClash (Join (f.path ++ [fileName]))) := by
  rw [Add_of_valid f fileName e b hname hread, if_pos htaken]

theorem mapGet_append_fresh (m : GoMap) (k v k2 : GoString) (hfresh : mapGet m k = none) :
    mapGet (m ++ [(k, v)]) k2 = if k2 = k then some v else mapGet m k2 := by
  rw [← mapSet_fresh m k v hfresh]
  by_cases h : k2 = k
  · subst h; simp [mapGet_mapSet_self]
  · simp [h, mapGet_mapSet_ne _ _ _ _ h]

/-- A key staged once is staged for the rest of the lifetime. -/
theorem runCalls_keeps (calls : List Call) (m0 m : GoMap) (k : GoString)
    (hrun : runCalls calls m0 = some m) (hk : (mapGet m0 k).isSome = true) :
    (mapGet m k).isSome = true := by
  induction calls generalizing m0 with
  | nil => simp [runCalls] at hrun; subst hrun; exact hk
  | cons c rest ih =>
    unfold runCalls at hrun
    cases hp : (c.run m0).panic with
    | some p => simp [hp] at hrun
    | none =>
      simp only [hp] at hrun
      apply ih _ hrun
      obtain ⟨_, hfresh, b, _, hpool⟩ := Add_ok _ _ _ hp
      have hm : (c.run m0).pool.m = m0 ++ [(Join (c.path ++ [c.fileName]),
          encodedComments c.e c.topLevelComments ++ b)] := by
        unfold Call.run; rw [hpool]
      rw [hm, mapGet_append_fresh _ _ _ _ hfresh]
      split
      · rfl
      · exact hk

theorem runCalls_append (xs ys : List Call) (m0 : GoMap) :
    runCalls (xs ++ ys) m0 = (runCalls xs m0).bind (runCalls ys) := by
  induction xs generalizing m0 with
  | nil => simp [runCalls]
  | cons c rest ih =>
    simp only [List.cons_append, runCalls]
    cases hp : (c.run m0).panic with
    | some p => simp
    | none => simp [ih]


/-- Every file name with a separator, except `"/"` itself, is stopped by the file-name check. -/
theorem Add_rejects_separator (f : FilePool) (fileName : GoString) (e : Encoder)
    (hsep : Separator ∈ fileName) (hslash : fileName ≠ [Separator]) :
    (f.Add fileName e).panic = some .InvalidFileName := by
  have hbase : Base fileName ≠ fileName := by
    intro h
    have := (Base_fixed fileName h hslash).2 Separator hsep
    simp [notSeparator, IsPathSeparator] at this
  rw [Add_of_invalid f fileName e hbase]

/-! ## The write pass -/

theorem FS.ext_fields (a b : FS) (hwd : a.wd = b.wd) (hfiles : ∀ p, a.files p = b.files p)
    (hdirs : ∀ p, a.dirs p = b.dirs p) : a = b := by
  cases a; cases b
  simp only [FS.mk.injEq]
  exact ⟨hwd, funext hfiles, funext hdirs⟩

theorem writeLoop_noFaults_cons (outputDir file contents : GoString) (rest : GoMap) (fs : FS) :
    writeLoop noFaults outputDir ((file, contents) :: rest) fs =
      writeLoop noFaults outputDir rest
        ((fs.MkdirAll (Dir (Join [outputDir, file]))).WriteFile (Join [outputDir, file])
          contents) := rfl

/-- Without failures the write pass runs to its end. -/
theorem writeLoop_noFaults_panic (outputDir : GoString) (order : GoMap) (fs : FS) :
    (writeLoop noFaults outputDir order fs).panic = none := by
  induction order generalizing fs with
  | nil => rfl
  | cons kv rest ih =>
    obtain ⟨file, contents⟩ := kv
    rw [writeLoop_noFaults_cons]
    exact ih _

theorem writeLoop_cons_mkdir_fails (faults : Faults) (outputDir file contents : GoString)
    (rest : GoMap) (fs : FS) (err : GoString)
    (hmk : faults.MkdirAll fs (Dir (Join [outputDir, file])) = some err) :
    writeLoop faults outputDir ((file, contents) :: rest) fs =
      ⟨fs, some (.DirectoryCreationFailure (Dir (Join [outputDir, file])) err)⟩ := by
  simp only [writeLoop, hmk]

theorem writeLoop_cons_write_fails (faults : Faults) (outputDir file contents : GoString)
    (rest : GoMap) (fs : FS) (err : GoString)
    (hmk : faults.MkdirAll fs (Dir (Join [outputDir, file])) = none)
    (hwr : faults.WriteFile (fs.MkdirAll (Dir (Join [outputDir, file]))) (Join [outputDir, file])
      contents = some err) :
    writeLoop faults outputDir ((file, contents) :: rest) fs =
      ⟨fs.MkdirAll (Dir (Join [outputDir, file])),
       some (.FileWriteFailure (Join [outputDir, file]) err)⟩ := by
  simp only [writeLoop, hmk, hwr]

theorem writeLoop_cons_ok (faults : Faults) (outputDir file contents : GoString)
    (rest : GoMap) (fs : FS)
    (hmk : faults.MkdirAll fs (Dir (Join [outputDir, file])) = none)
    (hwr : faults.WriteFile (fs.MkdirAll (Dir (Join [outputDir, file]))) (Join [outputDir, file])
      contents = none) :
    writeLoop faults outputDir ((file, contents) :: rest) fs =
      writeLoop faults outputDir rest
        ((fs.MkdirAll (Dir (Join [outputDir, file]))).WriteFile (Join [outputDir, file])
          contents) := by
  simp only [writeLoop, hmk, hwr]

/-- A write pass that does not abort at its first entry did both calls for it and went on. -/
theorem writeLoop_cons_of_ok (faults : Faults) (outputDir file contents : GoString)
    (rest : GoMap) (fs : FS)
    (hok : (writeLoop faults outputDir ((file, contents) :: rest) fs).panic = none) :
    writeLoop faults outputDir ((file, contents) :: rest) fs =
      writeLoop faults outputDir rest
        ((fs.MkdirAll (Dir (Join [outputDir, file]))).WriteFile (Join [outputDir, file])
          contents) := by
  cases hmk : faults.MkdirAll fs (Dir (Join [outputDir, file])) with
  | some err =>
    rw [writeLoop_cons_mkdir_fails _ _ _ _ _ _ err hmk] at hok
    exact absurd hok (by simp)
  | none =>
    cases hwr : faults.WriteFile (fs.MkdirAll (Dir (Join [outputDir, file])))
        (Join [outputDir, file]) contents with
    | some err =>
      rw [writeLoop_cons_write_fails _ _ _ _ _ _ err hmk hwr] at hok
      exact absurd hok (by simp)
    | none => exact writeLoop_cons_ok _ _ _ _ _ _ hmk hwr

/-- The write pass does not change the working directory. -/
theorem writeLoop_wd (faults : Faults) (outputDir : GoString) (order : GoMap) (fs : FS) :
    (writeLoop faults outputDir order fs).fs.wd = fs.wd := by
  induction order generalizing fs with
  | nil => rfl
  | cons kv rest ih =>
    obtain ⟨file, contents⟩ := kv
    cases hmk : faults.MkdirAll fs (Dir (Join [outputDir, file])) with
    | some err => rw [writeLoop_cons_mkdir_fails _ _ _ _ _ _ err hmk]
    | none =>
      cases hwr : faults.WriteFile (fs.MkdirAll (Dir (Join [outputDir, file])))
          (Join [outputDir, file]) contents with
      | some err =>
        rw [writeLoop_cons_write_fails _ _ _ _ _ _ err hmk hwr]
        rfl
      | none =>
        rw [writeLoop_cons_ok _ _ _ _ _ _ hmk hwr, ih]
        rfl

/-- The write pass, aborted or not, leaves alone every file that no entry resolves to. -/
theorem writeLoop_files_other (faults : Faults) (outputDir : GoString) (order : GoMap) (fs : FS)
    (p : GoString) (hp : ∀ kv ∈ order, Abs fs.wd (Join [outputDir, kv.1]) ≠ p) :
    (writeLoop faults outputDir order fs).fs.files p = fs.files p := by
  induction order generalizing fs with
  | nil => rfl
  | cons kv rest ih =>
    obtain ⟨file, contents⟩ := kv
    have hne : ¬ p = Abs fs.wd (Join [outputDir, file]) :=
      fun h => hp (file, contents) (by simp) h.symm
    cases hmk : faults.MkdirAll fs (Dir (Join [outputDir, file])) with
    | some err => rw [writeLoop_cons_mkdir_fails _ _ _ _ _ _ err hmk]
    | none =>
      cases hwr : faults.WriteFile (fs.MkdirAll (Dir (Join [outputDir, file])))
          (Join [outputDir, file]) contents with
      | some err =>
        rw [writeLoop_cons_write_fails _ _ _ _ _ _ err hmk hwr]
        rfl
      | none =>
        rw [writeLoop_cons_ok _ _ _ _ _ _ hmk hwr,
          ih ((fs.MkdirAll (Dir (Join [outputDir, file]))).WriteFile (Join [outputDir, file])
            contents) (fun kv hkv => hp kv (List.mem_cons_of_mem _ hkv))]
        simp [FS.WriteFile, FS.MkdirAll, hne]

/-- A write pass that runs to its end leaves, for every entry whose file no later entry resolves
to, the content of that entry in its file. -/
theorem writeLoop_files_entry (faults : Faults) (outputDir : GoString) (order : GoMap) (fs : FS)
    (hok : (writeLoop faults outputDir order fs).panic = none)
    (hno : NoOverwrite fs.wd outputDir order) (k c : GoString) (hkc : (k, c) ∈ order) :
    (writeLoop faults outputDir order fs).fs.files (Abs fs.wd (Join [outputDir, k]))
      = some c := by
  induction order generalizing fs with
  | nil => simp at hkc
  | cons kv rest ih =>
    obtain ⟨file, contents⟩ := kv
    unfold NoOverwrite at hno
    rw [List.pairwise_cons] at hno
    have hstep := writeLoop_cons_of_ok faults outputDir file contents rest fs hok
    rw [hstep] at hok ⊢
    rcases List.mem_cons.mp hkc with heq | hmem
    · obtain ⟨hk, hc⟩ := Prod.mk.inj heq
      subst hk; subst hc
      rw [writeLoop_files_other faults outputDir rest
        ((fs.MkdirAll (Dir (Join [outputDir, k]))).WriteFile (Join [outputDir, k]) c)
        (Abs fs.wd (Join [outputDir, k])) (fun kv hkv h => hno.1 kv hkv h.symm)]
      simp [FS.WriteFile, FS.MkdirAll]
    · exact ih ((fs.MkdirAll (Dir (Join [outputDir, file]))).WriteFile (Join [outputDir, file])
        contents) hok hno.2 hmem

/-- What `os.ReadFile` finds after a write pass that runs to its end, for every entry whose file
no other entry resolves to. -/
theorem writeLoop_ReadFile_entry (faults : Faults) (outputDir : GoString) (order : GoMap)
    (fs : FS) (hok : (writeLoop faults outputDir order fs).panic = none)
    (hno : NoOverwrite fs.wd outputDir order) (k c : GoString) (hkc : (k, c) ∈ order) :
    (writeLoop faults outputDir order fs).fs.ReadFile (Join [outputDir, k]) = some c := by
  unfold FS.ReadFile
  rw [writeLoop_wd]
  exact writeLoop_files_entry faults outputDir order fs hok hno k c hkc

/-- The directories after a write pass without failures. -/
theorem writeLoop_noFaults_dirs (outputDir : GoString) (order : GoMap) (fs : FS) (p : GoString) :
    (writeLoop noFaults outputDir order fs).fs.dirs p = true ↔
      fs.dirs p = true ∨ ∃ kv ∈ order,
        p ∈ ancestors (Abs fs.wd (Dir (Join [outputDir, kv.1]))).length
              (Abs fs.wd (Dir (Join [outputDir, kv.1]))) := by
  induction order generalizing fs with
  | nil => simp [writeLoop]
  | cons kv rest ih =>
    obtain ⟨file, contents⟩ := kv
    rw [writeLoop_noFaults_cons, ih]
    simp only [FS.WriteFile, FS.MkdirAll, Bool.or_eq_true, decide_eq_true_eq, List.mem_cons,
      exists_eq_or_imp]
    tauto

/-- A write pass over entries at once behaves as one over the first ones followed, if it did not
abort, by one over the others. -/
theorem writeLoop_append (faults : Faults) (outputDir : GoString) (xs ys : GoMap) (fs : FS)
    (hok : (writeLoop faults outputDir xs fs).panic = none) :
    writeLoop faults outputDir (xs ++ ys) fs =
      writeLoop faults outputDir ys (writeLoop faults outputDir xs fs).fs := by
  induction xs generalizing fs with
  | nil => rfl
  | cons kv rest ih =>
    obtain ⟨file, contents⟩ := kv
    have hstep := writeLoop_cons_of_ok faults outputDir file contents rest fs hok
    have hmk : faults.MkdirAll fs (Dir (Join [outputDir, file])) = none := by
      cases hmk : faults.MkdirAll fs (Dir (Join [outputDir, file])) with
      | none => rfl
      | some err =>
        rw [writeLoop_cons_mkdir_fails _ _ _ _ _ _ err hmk] at hok
        exact absurd hok (by simp)
    have hwr : faults.WriteFile (fs.MkdirAll (Dir (Join [outputDir, file])))
        (Join [outputDir, file]) contents = none := by
      cases hwr : faults.WriteFile (fs.MkdirAll (Dir (Join [outputDir, file])))
          (Join [outputDir, file]) contents with
      | none => rfl
      | some err =>
        rw [writeLoop_cons_write_fails _ _ _ _ _ _ err hmk hwr] at hok
        exact absurd hok (by simp)
    rw [hstep] at hok ⊢
    rw [List.cons_append, writeLoop_cons_ok _ _ _ _ _ _ hmk hwr]
    exact ih _ hok

/-- The files after a write pass without failures: what the pass wrote last, the file as it was
where the pass wrote nothing. -/
theorem writeLoop_noFaults_files (outputDir : GoString) (order : GoMap) (fs : FS)
    (p : GoString) :
    (writeLoop noFaults outputDir order fs).fs.files p =
      match lastWrite fs.wd outputDir order p with
      | some c => some c
      | none => fs.files p := by
  induction order generalizing fs with
  | nil => rfl
  | cons kv rest ih =>
    obtain ⟨file, contents⟩ := kv
    rw [writeLoop_noFaults_cons, ih]
    simp only [lastWrite]
    have hwd : ((fs.MkdirAll (Dir (Join [outputDir, file]))).WriteFile (Join [outputDir, file])
        contents).wd = fs.wd := rfl
    rw [hwd]
    cases hlast : lastWrite fs.wd outputDir rest p with
    | some c => rfl
    | none =>
      by_cases hp : p = Abs fs.wd (Join [outputDir, file])
      · simp [FS.WriteFile, FS.MkdirAll, hp]
      · simp [FS.WriteFile, FS.MkdirAll, hp]

theorem NoOverwrite_perm (wd outputDir : GoString) (m order : GoMap) (hperm : order.Perm m)
    (hno : NoOverwrite wd outputDir m) : NoOverwrite wd outputDir order := by
  unfold NoOverwrite at hno ⊢
  exact hno.perm hperm.symm (fun h e => h e.symm)

/-! ## The claims about `Add` -/

/-- C1: for every pool, every file name that is its own base name and every encoder whose stream
drains to `b`, if the joined path is not yet a key then `Add` does not abort and afterwards the
entry under `filepath.Join(path ++ [fileName])` is the rendered comments, in registration order,
followed by `b`. -/
theorem Add_stages_rendered_content (f : FilePool) (fileName : GoString) (e : Encoder)
    (b : GoString) (hname : Base fileName = fileName) (hread : e.ReadAll = .ok b)
    (hfresh : mapGet f.m (Join (f.path ++ [fileName])) = none) :
    (f.Add fileName e).panic = none ∧
    mapGet (f.Add fileName e).pool.m (Join (f.path ++ [fileName]))
      = some (encodedComments e f.topLevelComments ++ b) := by
  have hok := Add_succeeds f fileName e b hname hread hfresh
  refine ⟨hok, ?_⟩
  obtain ⟨_, _, b2, hb2, hpool⟩ := Add_ok f fileName e hok
  have hbb : b2 = b := by
    rw [hread] at hb2
    exact (Except.ok.inj hb2).symm
  rw [hpool, hbb]
  simp [mapGet_append_fresh _ _ _ _ hfresh]

/-- The scenario of C1: path stack `["a","b"]`, comment `"GEN"`, `Add("x.yaml", "k: v")` stages the
key `a/b/x.yaml` with the content `# GEN\nk: v`. -/
theorem Add_stages_rendered_content_witness :
    Join (pool0.path ++ ["x.yaml".toList]) = "a/b/x.yaml".toList ∧
    encodedComments (yamlEncoder "k: v".toList) pool0.topLevelComments ++ "k: v".toList
      = "# GEN\nk: v".toList ∧
    ((pool0.Add "x.yaml".toList (yamlEncoder "k: v".toList)).panic = none ∧
     mapGet (pool0.Add "x.yaml".toList (yamlEncoder "k: v".toList)).pool.m
        (Join (pool0.path ++ ["x.yaml".toList]))
      = some (encodedComments (yamlEncoder "k: v".toList) pool0.topLevelComments
              ++ "k: v".toList)) :=
  ⟨by decide, by decide,
   Add_stages_rendered_content pool0 "x.yaml".toList (yamlEncoder "k: v".toList) "k: v".toList
     (by decide) rfl (by decide)⟩

/-- C2, as stated, fails: a second call whose resolved path equals that of a staged entry aborts
with `InvalidFileName` when its file name is not a bare name, and with `EncodingFailure` when its
stream cannot be drained, because both checks come before the clash check. -/
theorem second_Add_not_always_clash :
    callSubPath.output = callX.output ∧ callBroken.output = callX.output ∧
    (callX.run []).panic = none ∧
    (callSubPath.run (callX.run []).pool.m).panic = some .InvalidFileName ∧
    (callBroken.run (callX.run []).pool.m).panic = some (.EncodingFailure "EOF".toList) := by
  decide

/-- C2, amended: in a lifetime in which the call `c1` went through, a later call `c2` that resolves
to the same output path, has a bare file name and a stream that drains, aborts with
`FilenameClash` on that path, whatever the contents, the path stacks and the calls in between;
the map stays as it was. -/
theorem second_Add_clashes (before between : List Call) (c1 c2 : Call) (m0 m : GoMap)
    (b2 : GoString) (hrun : runCalls (before ++ c1 :: between) m0 = some m)
    (hsame : c2.output = c1.output) (hname : Base c2.fileName = c2.fileName)
    (hread : c2.e.ReadAll = .ok b2) :
    (c2.run m).panic = some (.FilenameClash c2.output) ∧ (c2.run m).pool.m = m := by
  rw [runCalls_append] at hrun
  cases h1 : runCalls before m0 with
  | none => simp [h1] at hrun
  | some m1 =>
    simp only [h1, Option.some_bind] at hrun
    unfold runCalls at hrun
    cases hp : (c1.run m1).panic with
    | some p => simp [hp] at hrun
    | none =>
      simp only [hp] at hrun
      obtain ⟨_, hfresh, b1, _, hpool⟩ := Add_ok _ _ _ hp
      have hm : (c1.run m1).pool.m = m1 ++ [(Join (c1.path ++ [c1.fileName]),
          encodedComments c1.e c1.topLevelComments ++ b1)] := by
        unfold Call.run; rw [hpool]
      have hstaged : (mapGet (c1.run m1).pool.m c1.output).isSome = true := by
        rw [hm, mapGet_append_fresh _ _ _ _ hfresh]
        simp [Call.output]
      have htaken : (mapGet m c2.output).isSome = true := by
        rw [hsame]
        exact runCalls_keeps between _ m _ hrun hstaged
      have hclash := Add_clashes ⟨c2.path, m, c2.topLevelComments⟩ c2.fileName c2.e b2 hname
        hread htaken
      refine ⟨hclash, ?_⟩
      have hpanic : (c2.run m).panic ≠ none := by
        unfold Call.run; rw [hclash]; simp
      have := Add_panic_pool ⟨c2.path, m, c2.topLevelComments⟩ c2.fileName c2.e hpanic
      unfold Call.run
      rw [this]

/-- A lifetime for C2: `x.yaml` is staged under `["a","b"]`, another file is staged, and then
`x.yaml` is added under the one-segment stack `["a/b"]` with other content. -/
theorem second_Add_clashes_witness :
    runCalls ([] ++ callX :: [callY]) [] =
      some [("a/b/x.yaml".toList, "# GEN\nk: v".toList), ("a/y.yaml".toList, "".toList)] ∧
    callOtherStack.output = callX.output ∧
    ((callOtherStack.run
        [("a/b/x.yaml".toList, "# GEN\nk: v".toList), ("a/y.yaml".toList, "".toList)]).panic
      = some (.FilenameClash callOtherStack.output) ∧
     (callOtherStack.run
        [("a/b/x.yaml".toList, "# GEN\nk: v".toList), ("a/y.yaml".toList, "".toList)]).pool.m
      = [("a/b/x.yaml".toList, "# GEN\nk: v".toList), ("a/y.yaml".toList, "".toList)]) :=
  ⟨by decide, by decide,
   second_Add_clashes [] [callY] callX callOtherStack [] _ "k: w".toList (by decide) (by decide)
     (by decide) rfl⟩

/-- C3, at the failing input: the file name `"/"` contains a path separator, yet it is its own
base name, so `Add` does not abort and stages it (here under the key `a/b`). -/
theorem Add_accepts_separator_name :
    Separator ∈ "/".toList ∧ Base "/".toList = "/".toList ∧
    (pool0.Add "/".toList (yamlEncoder "k: v".toList)).panic = none ∧
    (pool0.Add "/".toList (yamlEncoder "k: v".toList)).pool.m
      = [("a/b".toList, "# GEN\nk: v".toList)] := by
  decide

/-- C4, as stated, fails: `Add` accepts the file names `".."` and `"."`, which are their own base
names; under the path stack `["a","b"]` the first is staged under the key `a`, the parent of the
directory `a/b` of the stack, and the second under `a/b`, that directory itself; with an empty
stack the key of `".."` is `..`; and under the path stack `["/etc"]` the key of `x` is the
rooted path `/etc/x`. -/
theorem Add_key_can_leave_directory :
    Join pool0.path = "a/b".toList ∧ Dir "a/b".toList = "a".toList ∧
    (pool0.Add "..".toList (yamlEncoder "k: v".toList)).panic = none ∧
    (pool0.Add "..".toList (yamlEncoder "k: v".toList)).pool.m
      = [("a".toList, "# GEN\nk: v".toList)] ∧
    (pool0.Add ".".toList (yamlEncoder "k: v".toList)).panic = none ∧
    (pool0.Add ".".toList (yamlEncoder "k: v".toList)).pool.m
      = [("a/b".toList, "# GEN\nk: v".toList)] ∧
    (FilePool.Add ⟨[], [], []⟩ "..".toList (yamlEncoder "k: v".toList)).pool.m
      = [("..".toList, "k: v".toList)] ∧
    (FilePool.Add ⟨["/etc".toList], [], []⟩ "x".toList (yamlEncoder "k: v".toList)).pool.m
      = [("/etc/x".toList, "k: v".toList)] := by
  decide

/-- C4, amended: for every pool and every file name that `Add` accepts, other than `"."`, `".."`
and `"/"`, the entry is staged under the file name placed directly in the directory that the path
stack joins to (that directory, a separator and the name; the name alone when the stack joins to
`""` or `"."`); the base name of the key is the file name, and the key is a rooted path exactly
when the directory of the stack is. -/
theorem Add_key_in_stack_directory (f : FilePool) (fileName : GoString) (e : Encoder)
    (hok : (f.Add fileName e).panic = none)
    (hdot : fileName ≠ ['.']) (hdotdot : fileName ≠ ['.', '.'])
    (hslash : fileName ≠ [Separator]) :
    (mapGet (f.Add fileName e).pool.m (inDir (Join f.path) fileName)).isSome = true ∧
    mapGet f.m (inDir (Join f.path) fileName) = none ∧
    Join (f.path ++ [fileName]) = inDir (Join f.path) fileName ∧
    Base (inDir (Join f.path) fileName) = fileName ∧
    ((inDir (Join f.path) fileName).head? = some Separator ↔
      (Join f.path).head? = some Separator) := by
  obtain ⟨hbase, hfresh, b, _, hpool⟩ := Add_ok f fileName e hok
  obtain ⟨hne, hnosep⟩ := Base_fixed fileName hbase hslash
  have hkey := Join_snoc f.path fileName hne hnosep hdot hdotdot
  rw [hkey] at hfresh hpool
  refine ⟨?_, hfresh, hkey, Base_inDir _ _ hne hnosep, head_inDir _ _ hne hnosep⟩
  rw [hpool]
  simp [mapGet_append_fresh _ _ _ _ hfresh]

/-- The scenario for C4: `x.yaml` under the path stack `["a","b"]` is staged as `a/b/x.yaml`. -/
theorem Add_key_in_stack_directory_witness :
    inDir (Join pool0.path) "x.yaml".toList = "a/b/x.yaml".toList ∧
    Join (pool0.path ++ ["x.yaml".toList]) = inDir (Join pool0.path) "x.yaml".toList ∧
    Base (inDir (Join pool0.path) "x.yaml".toList) = "x.yaml".toList :=
  ⟨by decide,
   (Add_key_in_stack_directory pool0 "x.yaml".toList (yamlEncoder "k: v".toList)
      (by decide) (by decide) (by decide) (by decide)).2.2.1,
   (Add_key_in_stack_directory pool0 "x.yaml".toList (yamlEncoder "k: v".toList)
      (by decide) (by decide) (by decide) (by decide)).2.2.2.1⟩

/-- C5: when `Add` aborts with `FilenameClash`, the pool (path stack, staged entries, comments) is
what it was before the call. -/
theorem Add_clash_keeps_entries (f : FilePool) (fileName : GoString) (e : Encoder)
    (output : GoString) (hclash : (f.Add fileName e).panic = some (.FilenameClash output)) :
    (f.Add fileName e).pool = f ∧ (f.Add fileName e).pool.m = f.m := by
  have hpool : (f.Add fileName e).pool = f :=
    Add_panic_pool f fileName e (by rw [hclash]; simp)
  exact ⟨hpool, by rw [hpool]⟩

/-- The scenario of C5: two `Add("x.yaml", ...)` at the same path stack, with different contents;
the second aborts with `FilenameClash` and the map is the one the first call left, the first
content kept. -/
theorem Add_clash_keeps_entries_witness :
    (pool0.Add "x.yaml".toList (yamlEncoder "k: v".toList)).panic = none ∧
    (pool0.Add "x.yaml".toList (yamlEncoder "k: v".toList)).pool.m
      = [("a/b/x.yaml".toList, "# GEN\nk: v".toList)] ∧
    ((pool0.Add "x.yaml".toList (yamlEncoder "k: v".toList)).pool.Add "x.yaml".toList
        (yamlEncoder "k: w".toList)).panic = some (.FilenameClash "a/b/x.yaml".toList) ∧
    (((pool0.Add "x.yaml".toList (yamlEncoder "k: v".toList)).pool.Add "x.yaml".toList
        (yamlEncoder "k: w".toList)).pool
      = (pool0.Add "x.yaml".toList (yamlEncoder "k: v".toList)).pool ∧
     ((pool0.Add "x.yaml".toList (yamlEncoder "k: v".toList)).pool.Add "x.yaml".toList
        (yamlEncoder "k: w".toList)).pool.m
      = (pool0.Add "x.yaml".toList (yamlEncoder "k: v".toList)).pool.m) :=
  ⟨by decide, by decide, by decide,
   Add_clash_keeps_entries (pool0.Add "x.yaml".toList (yamlEncoder "k: v".toList)).pool
     "x.yaml".toList (yamlEncoder "k: w".toList) "a/b/x.yaml".toList (by decide)⟩

/-- C6: for every call of `Add` that does not abort, every entry staged before is still staged with
the same content, exactly one pair is added to the map, under the joined path, which was not a
key before, and the path stack and the top-level comments are unchanged. -/
theorem Add_strictly_additive (f : FilePool) (fileName : GoString) (e : Encoder)
    (hok : (f.Add fileName e).panic = none) :
    (∀ k v, mapGet f.m k = some v → mapGet (f.Add fileName e).pool.m k = some v) ∧
    mapGet f.m (Join (f.path ++ [fileName])) = none ∧
    (∃ v, (f.Add fileName e).pool.m = f.m ++ [(Join (f.path ++ [fileName]), v)]) ∧
    (∀ k, k ≠ Join (f.path ++ [fileName]) →
      mapGet (f.Add fileName e).pool.m k = mapGet f.m k) ∧
    (f.Add fileName e).pool.m.length = f.m.length + 1 ∧
    (f.Add fileName e).pool.path = f.path ∧
    (f.Add fileName e).pool.topLevelComments = f.topLevelComments := by
  obtain ⟨_, hfresh, b, _, hpool⟩ := Add_ok f fileName e hok
  rw [hpool]
  refine ⟨?_, hfresh, ⟨_, rfl⟩, ?_, by simp, rfl, rfl⟩
  · intro k v hkv
    simp only [mapGet_append_fresh _ _ _ _ hfresh]
    by_cases hk : k = Join (f.path ++ [fileName])
    · rw [hk, hfresh] at hkv
      exact absurd hkv (by simp)
    · rw [if_neg hk, hkv]
  · intro k hk
    simp only [mapGet_append_fresh _ _ _ _ hfresh]
    rw [if_neg hk]

/-- A successful `Add` on a pool that already holds an entry, for C6. -/
theorem Add_strictly_additive_witness :
    ((pool0.Add "x.yaml".toList (yamlEncoder "k: v".toList)).pool.Add "y.yaml".toList
        (yamlEncoder "".toList)).pool.m
      = [("a/b/x.yaml".toList, "# GEN\nk: v".toList), ("a/b/y.yaml".toList, "# GEN\n".toList)] ∧
    mapGet ((pool0.Add "x.yaml".toList (yamlEncoder "k: v".toList)).pool.Add "y.yaml".toList
        (yamlEncoder "".toList)).pool.m "a/b/x.yaml".toList = some "# GEN\nk: v".toList :=
  ⟨by decide,
   (Add_strictly_additive (pool0.Add "x.yaml".toList (yamlEncoder "k: v".toList)).pool
      "y.yaml".toList (yamlEncoder "".toList) (by decide)).1
      "a/b/x.yaml".toList "# GEN\nk: v".toList (by decide)⟩

/-- C9, at the failing input: `Add("sub/x.yaml", ...)` aborts at the file-name check; the call
`Panicf("")` has an empty format and no argument, so the abort is the same for every rejected
name, its message is empty and does not name the file, while the message of the clash abort names
the clashing path. -/
theorem invalid_name_abort_message_empty :
    (pool0.Add "sub/x.yaml".toList (yamlEncoder "k: v".toList)).panic = some .InvalidFileName ∧
    (pool0.Add "other/y.yaml".toList (yamlEncoder "k: v".toList)).panic
      = (pool0.Add "sub/x.yaml".toList (yamlEncoder "k: v".toList)).panic ∧
    AddPanic.InvalidFileName.format = [] ∧ AddPanic.InvalidFileName.args = [] ∧
    AddPanic.InvalidFileName.message = [] ∧
    (AddPanic.FilenameClash "a/b/x.yaml".toList).message
      = "filename clash: a/b/x.yaml".toList := by
  decide

/-! ## The claims about the write pass -/

/-- C7, as stated, fails: `Add("x", ...)` with an empty path stack and with the path stack
`[".."]` stages the two keys `x` and `../x`; under the output root `/` both resolve to the file
`/x`, so in either order of the pass one of the two entries does not find its content there.
With the relative root `gen` and the working directory `/work`, the keys `x` and
`../../work/gen/x` are joined to two different names, `gen/x` and `../work/gen/x`, of the one
file `/work/gen/x`. -/
theorem write_entries_can_overwrite :
    runCalls [callPlainX, callParentX] []
      = some [("x".toList, "A".toList), ("../x".toList, "B".toList)] ∧
    Join ["/".toList, "x".toList] = Join ["/".toList, "../x".toList] ∧
    (writeLoop noFaults "/".toList [("x".toList, "A".toList), ("../x".toList, "B".toList)]
        (emptyFS "/work".toList)).fs.ReadFile (Join ["/".toList, "x".toList])
      ≠ some "A".toList ∧
    (writeLoop noFaults "/".toList [("../x".toList, "B".toList), ("x".toList, "A".toList)]
        (emptyFS "/work".toList)).fs.ReadFile (Join ["/".toList, "../x".toList])
      ≠ some "B".toList ∧
    runCalls [callPlainX, callAroundX] []
      = some [("x".toList, "A".toList), ("../../work/gen/x".toList, "B".toList)] ∧
    Join ["gen".toList, "x".toList] ≠ Join ["gen".toList, "../../work/gen/x".toList] ∧
    (writeLoop noFaults "gen".toList
        [("x".toList, "A".toList), ("../../work/gen/x".toList, "B".toList)]
        (emptyFS "/work".toList)).fs.ReadFile (Join ["gen".toList, "x".toList])
      ≠ some "A".toList := by
  decide

/-- C7, amended: for every pool whose staged keys resolve to pairwise different files under the
output root (files, as the working directory resolves the joined names, on a filesystem without
links), every order of the pass and every filesystem on which nothing fails, the pass runs to
its end and afterwards every staged entry `(k, c)` has its own file: reading
`filepath.Join(r, k)` gives exactly `c`. -/
theorem write_gives_every_entry_its_file (f : FilePool) (order : GoMap) (outputDir : GoString)
    (fs : FS) (horder : order.Perm f.m) (hno : NoOverwrite fs.wd outputDir f.m) :
    (writeLoop noFaults outputDir order fs).panic = none ∧
    ∀ k c, (k, c) ∈ f.m →
      (writeLoop noFaults outputDir order fs).fs.ReadFile (Join [outputDir, k]) = some c := by
  refine ⟨writeLoop_noFaults_panic outputDir order fs, ?_⟩
  intro k c hkc
  exact writeLoop_ReadFile_entry noFaults outputDir order fs
    (writeLoop_noFaults_panic outputDir order fs)
    (NoOverwrite_perm fs.wd outputDir f.m order horder hno) k c (horder.mem_iff.mpr hkc)

/-- The scenario of C7, with a second entry: the pool holds `a/b/x.yaml` and `a/b/y.yaml`, both
staged by `Add`; written to the root `/out`, in the other order than they were staged, the file
`/out/a/b/x.yaml` has the staged content, and so has `/out/a/b/y.yaml`; written to the relative
root `gen` from the working directory `/work`, the file is `/work/gen/a/b/x.yaml`. -/
theorem write_gives_every_entry_its_file_witness :
    pool2.m = [("a/b/x.yaml".toList, "# GEN\nk: v".toList),
               ("a/b/y.yaml".toList, "# GEN\n".toList)] ∧
    Join ["/out".toList, "a/b/x.yaml".toList] = "/out/a/b/x.yaml".toList ∧
    (writeLoop noFaults "/out".toList
        [("a/b/y.yaml".toList, "# GEN\n".toList), ("a/b/x.yaml".toList, "# GEN\nk: v".toList)]
        (emptyFS "/work".toList)).fs.ReadFile (Join ["/out".toList, "a/b/x.yaml".toList])
      = some "# GEN\nk: v".toList ∧
    (writeLoop noFaults "/out".toList
        [("a/b/y.yaml".toList, "# GEN\n".toList), ("a/b/x.yaml".toList, "# GEN\nk: v".toList)]
        (emptyFS "/work".toList)).fs.ReadFile (Join ["/out".toList, "a/b/y.yaml".toList])
      = some "# GEN\n".toList ∧
    Abs "/work".toList (Join ["gen".toList, "a/b/x.yaml".toList])
      = "/work/gen/a/b/x.yaml".toList ∧
    (writeLoop noFaults "gen".toList
        [("a/b/x.yaml".toList, "# GEN\nk: v".toList), ("a/b/y.yaml".toList, "# GEN\n".toList)]
        (emptyFS "/work".toList)).fs.ReadFile (Join ["gen".toList, "a/b/x.yaml".toList])
      = some "# GEN\nk: v".toList :=
  ⟨by decide, by decide,
   (write_gives_every_entry_its_file pool2
      [("a/b/y.yaml".toList, "# GEN\n".toList), ("a/b/x.yaml".toList, "# GEN\nk: v".toList)]
      "/out".toList (emptyFS "/work".toList) (List.Perm.swap _ _ _) (by decide)).2
      "a/b/x.yaml".toList "# GEN\nk: v".toList (by decide),
   (write_gives_every_entry_its_file pool2
      [("a/b/y.yaml".toList, "# GEN\n".toList), ("a/b/x.yaml".toList, "# GEN\nk: v".toList)]
      "/out".toList (emptyFS "/work".toList) (List.Perm.swap _ _ _) (by decide)).2
      "a/b/y.yaml".toList "# GEN\n".toList (by decide),
   by decide,
   (write_gives_every_entry_its_file pool2
      [("a/b/x.yaml".toList, "# GEN\nk: v".toList), ("a/b/y.yaml".toList, "# GEN\n".toList)]
      "gen".toList (emptyFS "/work".toList) (List.Perm.refl _) (by decide)).2
      "a/b/x.yaml".toList "# GEN\nk: v".toList (by decide)⟩

/-- C8, as stated, fails: the keys `x` and `../out/x` are staged by two `Add` calls and resolve to
the same file under the root `/out`; Go does not fix the order in which `range` yields the
entries of a map, and a second pass that yields them in the other order leaves another content
in `/out/x` than the first pass did. -/
theorem write_twice_can_differ :
    runCalls [callPlainX, callUpX] []
      = some [("x".toList, "A".toList), ("../out/x".toList, "B".toList)] ∧
    List.Perm [("../out/x".toList, "B".toList), ("x".toList, "A".toList)]
      [("x".toList, "A".toList), ("../out/x".toList, "B".toList)] ∧
    (writeLoop noFaults "/out".toList [("x".toList, "A".toList), ("../out/x".toList, "B".toList)]
        (emptyFS "/work".toList)).fs.ReadFile "/out/x".toList = some "B".toList ∧
    (writeLoop noFaults "/out".toList [("../out/x".toList, "B".toList), ("x".toList, "A".toList)]
        (writeLoop noFaults "/out".toList
          [("x".toList, "A".toList), ("../out/x".toList, "B".toList)]
          (emptyFS "/work".toList)).fs).fs.ReadFile "/out/x".toList = some "A".toList := by
  refine ⟨by decide, ?_, by decide, by decide⟩
  exact List.Perm.swap _ _ _

/-- C8, amended: for every pool, output root and filesystem on which nothing fails, a second write
pass leaves the filesystem (working directory, files and directories) as the first one left it,
provided that no two staged keys resolve to the same file under the output root (files, as the
working directory resolves the joined names, on a filesystem without links), whatever the orders
of the two passes, or that the second pass ranges over the entries in the order of the first. -/
theorem write_twice_same_as_once (f : FilePool) (order1 order2 : GoMap) (outputDir : GoString)
    (fs : FS) (horder1 : order1.Perm f.m) (horder2 : order2.Perm f.m)
    (hsafe : NoOverwrite fs.wd outputDir f.m ∨ order2 = order1) :
    (writeLoop noFaults outputDir order2 (writeLoop noFaults outputDir order1 fs).fs).fs
      = (writeLoop noFaults outputDir order1 fs).fs := by
  have h12 : order1.Perm order2 := horder1.trans horder2.symm
  have hwd1 : (writeLoop noFaults outputDir order1 fs).fs.wd = fs.wd := writeLoop_wd _ _ _ _
  apply FS.ext_fields
  · exact writeLoop_wd _ _ _ _
  · intro p
    rcases hsafe with hno | hsame
    · have hno1 := NoOverwrite_perm fs.wd outputDir f.m order1 horder1 hno
      have hno2 : NoOverwrite (writeLoop noFaults outputDir order1 fs).fs.wd outputDir
          order2 := by
        rw [hwd1]
        exact NoOverwrite_perm fs.wd outputDir f.m order2 horder2 hno
      by_cases hp : ∃ kv ∈ order1, Abs fs.wd (Join [outputDir, kv.1]) = p
      · obtain ⟨⟨k, c⟩, hmem, hout⟩ := hp
        simp only at hout
        have e2 := writeLoop_files_entry noFaults outputDir order2
          (writeLoop noFaults outputDir order1 fs).fs (writeLoop_noFaults_panic _ _ _) hno2
          k c (h12.mem_iff.mp hmem)
        rw [hwd1] at e2
        rw [← hout, e2,
          writeLoop_files_entry noFaults outputDir order1 _ (writeLoop_noFaults_panic _ _ _)
            hno1 k c hmem]
      · have hp2 : ∀ kv ∈ order2,
            Abs (writeLoop noFaults outputDir order1 fs).fs.wd (Join [outputDir, kv.1]) ≠ p := by
          intro kv hkv h
          rw [hwd1] at h
          exact hp ⟨kv, h12.mem_iff.mpr hkv, h⟩
        rw [writeLoop_files_other noFaults outputDir order2 _ p hp2]
    · subst hsame
      rw [writeLoop_noFaults_files outputDir order2 _ p, hwd1,
        writeLoop_noFaults_files outputDir order2 fs p]
      cases lastWrite fs.wd outputDir order2 p with
      | some c => rfl
      | none => rfl
  · intro p
    rw [Bool.eq_iff_iff, writeLoop_noFaults_dirs outputDir order2, hwd1,
      writeLoop_noFaults_dirs]
    constructor
    · rintro (h | ⟨kv, hkv, h⟩)
      · exact h
      · exact Or.inr ⟨kv, h12.mem_iff.mpr hkv, h⟩
    · intro h
      exact Or.inl h

/-- Two passes for C8, in two different orders, over two entries staged by `Add`, to a relative
root. -/
theorem write_twice_same_as_once_witness :
    (writeLoop noFaults "gen".toList
        [("a/b/y.yaml".toList, "# GEN\n".toList), ("a/b/x.yaml".toList, "# GEN\nk: v".toList)]
        (writeLoop noFaults "gen".toList
          [("a/b/x.yaml".toList, "# GEN\nk: v".toList), ("a/b/y.yaml".toList, "# GEN\n".toList)]
          (emptyFS "/work".toList)).fs).fs
      = (writeLoop noFaults "gen".toList
          [("a/b/x.yaml".toList, "# GEN\nk: v".toList), ("a/b/y.yaml".toList, "# GEN\n".toList)]
          (emptyFS "/work".toList)).fs :=
  write_twice_same_as_once pool2
    [("a/b/x.yaml".toList, "# GEN\nk: v".toList), ("a/b/y.yaml".toList, "# GEN\n".toList)]
    [("a/b/y.yaml".toList, "# GEN\n".toList), ("a/b/x.yaml".toList, "# GEN\nk: v".toList)]
    "gen".toList (emptyFS "/work".toList) (List.Perm.refl _) (List.Perm.swap _ _ _)
    (Or.inl (by decide))

/-- C10, as stated, fails: the keys `x` and `/x` are staged by two `Add` calls and resolve to the
same file under the root `/out`; when the write of a third entry fails, the pass aborts, and the
file of the first entry holds the content of the second, not its own. -/
theorem write_abort_earlier_entry_overwritten :
    runCalls [callPlainX, callRootX, callZ] []
      = some [("x".toList, "A".toList), ("/x".toList, "B".toList), ("z".toList, "C".toList)] ∧
    (writeLoop (failingWrite "/out/z".toList) "/out".toList
        [("x".toList, "A".toList), ("/x".toList, "B".toList), ("z".toList, "C".toList)]
        (emptyFS "/work".toList)).panic
      = some (.FileWriteFailure "/out/z".toList "no space left on device".toList) ∧
    (writeLoop (failingWrite "/out/z".toList) "/out".toList
        [("x".toList, "A".toList), ("/x".toList, "B".toList), ("z".toList, "C".toList)]
        (emptyFS "/work".toList)).fs.ReadFile (Join ["/out".toList, "x".toList])
      ≠ some "A".toList := by
  decide

/-- C10, amended: for entries that resolve to pairwise different files under the output root
(files, as the working directory resolves the joined names, on a filesystem without links), and
a filesystem whose directory creation and file write may fail: when the pass got through the
entries `before` and one of the two calls for the next entry fails, the pass aborts there with
the abort of the failing call (`DirectoryCreationFailure` with the directory and the error that
`os.MkdirAll` returned, or, when the directory was created, `FileWriteFailure` with the path and
the error that `os.WriteFile` returned); every entry that came before has its file with its
staged content, and the file of every entry that comes after is as it was before the pass. -/
theorem write_aborts_at_first_failure (faults : Faults) (outputDir : GoString)
    (before after : GoMap) (file contents : GoString) (fs : FS)
    (hbefore : (writeLoop faults outputDir before fs).panic = none)
    (hfail : faults.MkdirAll (writeLoop faults outputDir before fs).fs
               (Dir (Join [outputDir, file])) ≠ none ∨
             faults.WriteFile ((writeLoop faults outputDir before fs).fs.MkdirAll
               (Dir (Join [outputDir, file]))) (Join [outputDir, file]) contents ≠ none)
    (hno : NoOverwrite fs.wd outputDir (before ++ (file, contents) :: after)) :
    (∀ err, faults.MkdirAll (writeLoop faults outputDir before fs).fs
              (Dir (Join [outputDir, file])) = some err →
        (writeLoop faults outputDir (before ++ (file, contents) :: after) fs).panic
          = some (.DirectoryCreationFailure (Dir (Join [outputDir, file])) err)) ∧
    (∀ err, faults.MkdirAll (writeLoop faults outputDir before fs).fs
              (Dir (Join [outputDir, file])) = none →
        faults.WriteFile ((writeLoop faults outputDir before fs).fs.MkdirAll
          (Dir (Join [outputDir, file]))) (Join [outputDir, file]) contents = some err →
        (writeLoop faults outputDir (before ++ (file, contents) :: after) fs).panic
          = some (.FileWriteFailure (Join [outputDir, file]) err)) ∧
    (writeLoop faults outputDir (before ++ (file, contents) :: after) fs).panic ≠ none ∧
    (∀ k c, (k, c) ∈ before →
      (writeLoop faults outputDir (before ++ (file, contents) :: after) fs).fs.ReadFile
        (Join [outputDir, k]) = some c) ∧
    (∀ k c, (k, c) ∈ after →
      (writeLoop faults outputDir (before ++ (file, contents) :: after) fs).fs.ReadFile
        (Join [outputDir, k]) = fs.ReadFile (Join [outputDir, k])) := by
  unfold NoOverwrite at hno
  rw [List.pairwise_append] at hno
  obtain ⟨hnoBefore, _, hcross⟩ := hno
  have hwdB : (writeLoop faults outputDir before fs).fs.wd = fs.wd := writeLoop_wd _ _ _ _
  have hread : ∀ r : WriteResult, r.fs.wd = (writeLoop faults outputDir before fs).fs.wd →
      r.fs.files = (writeLoop faults outputDir before fs).fs.files →
      (∀ k c, (k, c) ∈ before → r.fs.ReadFile (Join [outputDir, k]) = some c) ∧
      (∀ k c, (k, c) ∈ after →
        r.fs.ReadFile (Join [outputDir, k]) = fs.ReadFile (Join [outputDir, k])) := by
    intro r hrwd hrfiles
    refine ⟨?_, ?_⟩
    · intro k c hkc
      unfold FS.ReadFile
      rw [hrwd, hrfiles, hwdB]
      exact writeLoop_files_entry faults outputDir before fs hbefore hnoBefore k c hkc
    · intro k c hkc
      unfold FS.ReadFile
      rw [hrwd, hrfiles, hwdB]
      apply writeLoop_files_other
      intro kv hkv h
      exact hcross kv hkv (k, c) (List.mem_cons_of_mem _ hkc) h
  rw [writeLoop_append faults outputDir before _ fs hbefore]
  cases hmk : faults.MkdirAll (writeLoop faults outputDir before fs).fs
      (Dir (Join [outputDir, file])) with
  | some err =>
    rw [writeLoop_cons_mkdir_fails _ _ _ _ _ _ err hmk]
    obtain ⟨h1, h2⟩ := hread
      ⟨(writeLoop faults outputDir before fs).fs,
       some (.DirectoryCreationFailure (Dir (Join [outputDir, file])) err)⟩ rfl rfl
    refine ⟨?_, ?_, by simp, h1, h2⟩
    · intro err2 h
      cases h
      rfl
    · intro err2 h
      exact absurd h (by simp)
  | none =>
    cases hwr : faults.WriteFile ((writeLoop faults outputDir before fs).fs.MkdirAll
        (Dir (Join [outputDir, file]))) (Join [outputDir, file]) contents with
    | some err =>
      rw [writeLoop_cons_write_fails _ _ _ _ _ _ err hmk hwr]
      obtain ⟨h1, h2⟩ := hread
        ⟨(writeLoop faults outputDir before fs).fs.MkdirAll (Dir (Join [outputDir, file])),
         some (.FileWriteFailure (Join [outputDir, file]) err)⟩ rfl rfl
      refine ⟨?_, ?_, by simp, h1, h2⟩
      · intro err2 h
        exact absurd h (by simp)
      · intro err2 _ h
        cases h
        rfl
    | none =>
      rcases hfail with h | h
      · exact absurd hmk h
      · exact absurd hwr h

/-- Two passes for C10 over three staged entries.  In the first the write of the second entry
fails: the abort is `FileWriteFailure` with that path and that error, the first entry is
written, the third is not.  In the second the directory of the second entry cannot be created:
the abort is `DirectoryCreationFailure` with that directory and that error. -/
theorem write_aborts_at_first_failure_witness :
    (writeLoop (failingWrite "/out/a/y.yaml".toList) "/out".toList
        ([("a/b/x.yaml".toList, "# GEN\nk: v".toList)] ++
          ("a/y.yaml".toList, "".toList) :: [("a/z.yaml".toList, "z".toList)])
        (emptyFS "/work".toList)).panic
      = some (.FileWriteFailure (Join ["/out".toList, "a/y.yaml".toList])
          "no space left on device".toList) ∧
    (writeLoop (failingWrite "/out/a/y.yaml".toList) "/out".toList
        ([("a/b/x.yaml".toList, "# GEN\nk: v".toList)] ++
          ("a/y.yaml".toList, "".toList) :: [("a/z.yaml".toList, "z".toList)])
        (emptyFS "/work".toList)).fs.ReadFile (Join ["/out".toList, "a/b/x.yaml".toList])
      = some "# GEN\nk: v".toList ∧
    (writeLoop (failingWrite "/out/a/y.yaml".toList) "/out".toList
        ([("a/b/x.yaml".toList, "# GEN\nk: v".toList)] ++
          ("a/y.yaml".toList, "".toList) :: [("a/z.yaml".toList, "z".toList)])
        (emptyFS "/work".toList)).fs.ReadFile (Join ["/out".toList, "a/z.yaml".toList])
      = (emptyFS "/work".toList).ReadFile (Join ["/out".toList, "a/z.yaml".toList]) ∧
    (writeLoop (failingMkdir "/out/a".toList) "/out".toList
        ([("x.yaml".toList, "k: v".toList)] ++
          ("a/y.yaml".toList, "".toList) :: [("a/z.yaml".toList, "z".toList)])
        (emptyFS "/work".toList)).panic
      = some (.DirectoryCreationFailure (Dir (Join ["/out".toList, "a/y.yaml".toList]))
          "permission denied".toList) :=
  ⟨(write_aborts_at_first_failure (failingWrite "/out/a/y.yaml".toList) "/out".toList
      [("a/b/x.yaml".toList, "# GEN\nk: v".toList)] [("a/z.yaml".toList, "z".toList)]
      "a/y.yaml".toList "".toList (emptyFS "/work".toList) (by decide) (by decide)
      (by decide)).2.1 "no space left on device".toList (by decide) (by decide),
   (write_aborts_at_first_failure (failingWrite "/out/a/y.yaml".toList) "/out".toList
      [("a/b/x.yaml".toList, "# GEN\nk: v".toList)] [("a/z.yaml".toList, "z".toList)]
      "a/y.yaml".toList "".toList (emptyFS "/work".toList) (by decide) (by decide)
      (by decide)).2.2.2.1 "a/b/x.yaml".toList "# GEN\nk: v".toList (by decide),
   (write_aborts_at_first_failure (failingWrite "/out/a/y.yaml".toList) "/out".toList
      [("a/b/x.yaml".toList, "# GEN\nk: v".toList)] [("a/z.yaml".toList, "z".toList)]
      "a/y.yaml".toList "".toList (emptyFS "/work".toList) (by decide) (by decide)
      (by decide)).2.2.2.2 "a/z.yaml".toList "z".toList (by decide),
   (write_aborts_at_first_failure (failingMkdir "/out/a".toList) "/out".toList
      [("x.yaml".toList, "k: v".toList)] [("a/z.yaml".toList, "z".toList)]
      "a/y.yaml".toList "".toList (emptyFS "/work".toList) (by decide) (by decide)
      (by decide)).1 "permission denied".toList (by decide)⟩

end Mimic
